import Mathlib

/-!
Verification of the bufferlinks core (src/app.go, src/unnamed/part_000):
the HTML tree walker and link-extraction engine, the feed-item-to-article
assembler, and the state reconciliation in `app.articles`.

Modelling conventions:
* `html.Node` (golang.org/x/net/html) is embedded as the inductive `Node`
  below: a node kind (element / text / other), the `DataAtom` tag identity
  (as a string, `"a"` standing for `atom.A`), the `Data` payload, the
  attribute list, and the child list (first-child / next-sibling chains of
  a parsed tree are finite and acyclic, hence an inductive tree).
* `url.Parse` (net/url) is an external collaborator; it is modelled as an
  arbitrary deterministic function `psu : String → Option GoURL` where
  `GoURL` retains the one field the code reads, `.Host`.  `html.Parse` is
  likewise an arbitrary `ph : String → Option Node`.
* `time.Time` is modelled as `Int`: `Before` is `<`, `IsZero` is `= 0`,
  and the zero value of the type is `0`.
* Go visitors (`visitor` interface in app.go) mutate their receiver and
  return either the receiver itself or nil; both visitors in the source
  (`flattenVisitor`, `linkVisitor`) always return the receiver on non-nil
  input and nil on nil input.  A visitor is therefore embedded as a state
  type `σ` with a step `visit : σ → Option Node → σ × Bool`, returning the
  receiver's post-state and whether a (successor) visitor was returned;
  `walkHTML` threads that state exactly as the aliased pointer does.
-/

/-! ## Definitions -/

/-- Kind of an `html.Node`: `html.ElementNode`, `html.TextNode`, or any
other node type (document, comment, doctype, ...), which the core treats
uniformly. -/
inductive NType where
  | element
  | text
  | other
deriving DecidableEq

/-- An `html.Node` tree: node type, `DataAtom` (tag identity; `"a"` models
`atom.A`), `Data`, `Attr` as key/value pairs, and the children list. -/
inductive Node where
  | mk (ntype : NType) (dataAtom : String) (data : String)
       (attrs : List (String × String)) (children : List Node)

/-- The node's kind (`n.Type`). -/
def Node.ntype : Node → NType
  | .mk t _ _ _ _ => t

/-- The node's tag identity (`n.DataAtom`). -/
def Node.dataAtom : Node → String
  | .mk _ a _ _ _ => a

/-- The node's `Data` payload (text content for text nodes). -/
def Node.data : Node → String
  | .mk _ _ d _ _ => d

/-- The node's attribute list (`n.Attr`). -/
def Node.attrs : Node → List (String × String)
  | .mk _ _ _ a _ => a

/-- The node's children, in document order (the `FirstChild`/`NextSibling`
chain). -/
def Node.children : Node → List Node
  | .mk _ _ _ _ cs => cs

/-- The result of the model `url.Parse`: the code only ever reads `.Host`. -/
structure GoURL where
  Host : String

/- `walkHTML` from app.go:

    func walkHTML(n *html.Node, v visitor) {
        vv := v.visit(n)
        if vv == nil { return }
        for child := n.FirstChild; child != nil; child = child.NextSibling {
            walkHTML(child, vv)
        }
        v.visit(nil)
    }

`visit s arg = (s', cont)` gives the receiver's state after the call and
whether a non-nil visitor was returned.  The final `v.visit(nil)` has its
return value discarded but may update the receiver's state, so we keep its
first component. -/
mutual

/-- Depth-first traversal `walkHTML` from app.go, with the visitor's
mutable state threaded explicitly. -/
def walkHTML {σ : Type} (visit : σ → Option Node → σ × Bool) : Node → σ → σ
  | n@(.mk _ _ _ _ cs), s =>
    let p := visit s (some n)
    if p.2 then
      let s2 := walkHTMLList visit cs p.1
      (visit s2 none).1
    else p.1

/-- The `for child := n.FirstChild; ...` loop of `walkHTML`. -/
def walkHTMLList {σ : Type} (visit : σ → Option Node → σ × Bool) :
    List Node → σ → σ
  | [], s => s
  | c :: cs, s => walkHTMLList visit cs (walkHTML visit c s)

end

/- `attr` from app.go:

    func attr(n *html.Node, name string) string {
        for _, at := range n.Attr {
            if strings.ToLower(at.Key) == name { return at.Val }
        }
        return ""
    }
-/
/-- ASCII case folding of a character, `'A'..'Z'` to `'a'..'z'`. -/
def lowerChar (c : Char) : Char :=
  if 65 ≤ c.toNat ∧ c.toNat ≤ 90 then Char.ofNat (c.toNat + 32) else c

/-- Model of `strings.ToLower` restricted to ASCII, which is all the code
ever feeds it (HTML attribute keys and feed titles); character-wise
lowering exactly as Go does for ASCII input. -/
def goToLower (s : String) : String := String.mk (s.data.map lowerChar)

/-- Attribute lookup `attr` from app.go: value of the first attribute whose
lowercased key equals `name`, or `""`. -/
def attr (n : Node) (name : String) : String :=
  match n.attrs.find? (fun at_ => goToLower at_.1 == name) with
  | some at_ => at_.2
  | none => ""

/-- `flattenVisitor.visit` from app.go: nil returns nil without touching
the buffer; a text node appends `n.Data + " "` to the buffer; every
non-nil call returns the visitor itself. -/
def flattenVisit (s : String) (n? : Option Node) : String × Bool :=
  match n? with
  | none => (s, false)
  | some n => (if n.ntype = .text then s ++ n.data ++ " " else s, true)

/-- `flatten` from app.go: walk `n`'s subtree with a fresh `flattenVisitor`
and return the accumulated buffer. -/
def flatten (n : Node) : String :=
  walkHTML flattenVisit n ""

/-- The `link` record from app.go.  In Go the composite literal
`&link{URL: ..., Domain: ..., Context: ...}` leaves `ID`, `Queued` and
`QueuedAt` at their zero values (`0`, `false`, `0`). -/
structure link where
  ID : Int
  URL : String
  Domain : String
  Context : String
  Queued : Bool
  QueuedAt : Int
deriving DecidableEq

/-- The `article` record from app.go. -/
structure article where
  ID : Int
  Title : String
  URL : String
  Links : List link
  Feed : String
  Date : Int
deriving DecidableEq

instance : Inhabited article := ⟨⟨0, "", "", [], "", 0⟩⟩

/- `linkVisitor.visit` from app.go:

    func (v *linkVisitor) visit(n *html.Node) visitor {
        if n == nil { return nil }
        if n.Type == html.ElementNode && n.DataAtom == atom.A {
            if href := attr(n, "href"); href != "" {
                if url, err := url.Parse(href); err == nil {
                    v.links = append(v.links, &link{
                        URL: href, Domain: url.Host, Context: flatten(n)})
                }
            }
        }
        return v
    }

The unused `parent` field of `linkVisitor` is never read or written and is
omitted; the state is the accumulated link slice. -/
/-- `linkVisitor.visit` from app.go, parameterized by the `url.Parse`
model `psu`. -/
def linkVisit (psu : String → Option GoURL) (links : List link)
    (n? : Option Node) : List link × Bool :=
  match n? with
  | none => (links, false)
  | some n =>
    if n.ntype = .element ∧ n.dataAtom = "a" then
      let href := attr n "href"
      if href ≠ "" then
        match psu href with
        | some u =>
          (links ++ [{ ID := 0, URL := href, Domain := u.Host,
                       Context := flatten n, Queued := false,
                       QueuedAt := 0 }], true)
        | none => (links, true)
      else (links, true)
    else (links, true)

/-- Link extraction over an already-parsed tree: walking `root` with a
fresh `linkVisitor` (the body of `findLinks` after `html.Parse`). -/
def extractLinks (psu : String → Option GoURL) (root : Node) : List link :=
  walkHTML (linkVisit psu) root []

/-- `findLinks` from app.go, with `html.Parse` modelled by `ph`; a parse
failure of the whole document is a hard error for the caller. -/
def findLinks (ph : String → Option Node) (psu : String → Option GoURL)
    (s : String) : Except Unit (List link) :=
  match ph s with
  | none => .error ()
  | some root => .ok (extractLinks psu root)

/-! ### Specification-side characterizations of extraction

The definitions prefixed `spec` restate, in the spec's vocabulary, what a
traversal is meant to produce; the theorems below relate them to the
visitor-based code. -/
mutual

/-- Spec-side: every anchor element of a tree in document (preorder)
order — the nodes `linkVisitor` reacts to. -/
def specAnchors : Node → List Node
  | n@(.mk _ _ _ _ cs) =>
    (if n.ntype = .element ∧ n.dataAtom = "a" then [n] else []) ++
      specAnchorsL cs

/-- Spec-side: anchors of a forest, in document order. -/
def specAnchorsL : List Node → List Node
  | [] => []
  | c :: cs => specAnchors c ++ specAnchorsL cs

end

mutual

/-- Spec-side: the raw text content of every text node of a tree, in
document order. -/
def specTextPieces : Node → List String
  | n@(.mk _ _ _ _ cs) =>
    (if n.ntype = .text then [n.data] else []) ++ specTextPiecesL cs

/-- Spec-side: text pieces of a forest, in document order. -/
def specTextPiecesL : List Node → List String
  | [] => []
  | c :: cs => specTextPieces c ++ specTextPiecesL cs

end

/-- Spec-side: the concatenation, in document order, of every text piece
under a node, each followed by exactly one space character. -/
def specContext (n : Node) : String :=
  String.join ((specTextPieces n).map (fun t => t ++ " "))

/-- Spec-side: the link an anchor yields, if any — `none` when the
href-equivalent attribute is absent/empty or its value fails to parse;
otherwise URL is the raw attribute value and Domain the parsed host. -/
def specLinkOf (psu : String → Option GoURL) (a : Node) : Option link :=
  if attr a "href" = "" then none
  else
    match psu (attr a "href") with
    | none => none
    | some u =>
      some { ID := 0, URL := attr a "href", Domain := u.Host,
             Context := flatten a, Queued := false, QueuedAt := 0 }

/-- The links `linkVisitor` appends when visiting node `n` (empty or a
singleton). -/
def emitLink (psu : String → Option GoURL) (n : Node) : List link :=
  if n.ntype = .element ∧ n.dataAtom = "a" then
    if attr n "href" ≠ "" then
      match psu (attr n "href") with
      | some u =>
        [{ ID := 0, URL := attr n "href", Domain := u.Host,
           Context := flatten n, Queued := false, QueuedAt := 0 }]
      | none => []
    else []
  else []

mutual

/-- Recursive form of link extraction: what the node itself emits,
followed by the emissions of its children in order. -/
def linksRec (psu : String → Option GoURL) : Node → List link
  | n@(.mk _ _ _ _ cs) => emitLink psu n ++ linksRecL psu cs

/-- Recursive form of link extraction over a forest. -/
def linksRecL (psu : String → Option GoURL) : List Node → List link
  | [] => []
  | c :: cs => linksRec psu c ++ linksRecL psu cs

end

mutual

/-- Recursive form of text flattening: the node's own contribution
followed by the children's, in order. -/
def flattenRec : Node → String
  | n@(.mk _ _ _ _ cs) =>
    (if n.ntype = .text then n.data ++ " " else "") ++ flattenRecL cs

/-- Recursive form of text flattening over a forest. -/
def flattenRecL : List Node → String
  | [] => ""
  | c :: cs => flattenRec c ++ flattenRecL cs

end

/-! ### Instrumented traversals

`walkHTMLTrace` is `walkHTML` recording, in order, the argument of every
`visit` call it makes (`some node` for an enter call, `none` for the exit
sentinel).  `walkHTMLFuel` is `walkHTML` as a fuel-indexed computation,
used to state termination. -/
mutual

/-- `walkHTML` instrumented with the sequence of `visit`-call arguments. -/
def walkHTMLTrace {σ : Type} (visit : σ → Option Node → σ × Bool) :
    Node → σ → σ × List (Option Node)
  | n@(.mk _ _ _ _ cs), s =>
    let p := visit s (some n)
    if p.2 then
      let q := walkHTMLListTrace visit cs p.1
      ((visit q.1 none).1, some n :: (q.2 ++ [none]))
    else (p.1, [some n])

/-- The child loop of `walkHTMLTrace`. -/
def walkHTMLListTrace {σ : Type} (visit : σ → Option Node → σ × Bool) :
    List Node → σ → σ × List (Option Node)
  | [], s => (s, [])
  | c :: cs, s =>
    let a := walkHTMLTrace visit c s
    let b := walkHTMLListTrace visit cs a.1
    (b.1, a.2 ++ b.2)

end

/-- Number of exit-sentinel (`none`) entries in a call trace. -/
def countNone : List (Option Node) → Nat
  | [] => 0
  | none :: t => countNone t + 1
  | some _ :: t => countNone t

mutual

/-- `walkHTML` as a fuel-indexed computation: `none` when the fuel runs
out before traversal completes. -/
def walkHTMLFuel {σ : Type} (visit : σ → Option Node → σ × Bool) :
    Nat → Node → σ → Option σ
  | 0, _, _ => none
  | k+1, n@(.mk _ _ _ _ cs), s =>
    let p := visit s (some n)
    if p.2 then
      match walkHTMLListFuel visit k cs p.1 with
      | none => none
      | some s2 => some (visit s2 none).1
    else some p.1

/-- The child loop of `walkHTMLFuel` (children share the remaining fuel,
one unit per tree level). -/
def walkHTMLListFuel {σ : Type} (visit : σ → Option Node → σ × Bool) :
    Nat → List Node → σ → Option σ
  | _, [], s => some s
  | k, c :: cs, s =>
    match walkHTMLFuel visit k c s with
    | none => none
    | some s1 => walkHTMLListFuel visit k cs s1

end

mutual

/-- Height of a node tree (1 + height of the tallest child). -/
def heightN : Node → Nat
  | .mk _ _ _ _ cs => heightL cs + 1

/-- Height of a forest. -/
def heightL : List Node → Nat
  | [] => 0
  | c :: cs => max (heightN c) (heightL cs)

end

/-! ### Feed-item-to-article assembly (`fetch` in app.go)

`rss.Fetch` is an external collaborator; `fetch`'s own logic starts from
the fetched feed value (title, link, items).  The hardcoded title filter
is `strings.Contains(strings.ToLower(item.Title), "link")`. -/
/-- A fetched feed item (`rss.Item`): the fields the core reads. -/
structure feedItem where
  Title : String
  Link : String
  Content : String
  Date : Int

/-- A fetched feed (`rss.Feed`): the fields the core reads. -/
structure feed where
  Title : String
  Link : String
  Items : List feedItem

/-- Is `pat` a prefix of `s` (character-wise)? -/
def listPref : List Char → List Char → Bool
  | [], _ => true
  | _ :: _, [] => false
  | a :: as, b :: bs => a == b && listPref as bs

/-- Does `s` contain `pat` as a contiguous run? -/
def listInf (pat : List Char) : List Char → Bool
  | [] => listPref pat []
  | s@(_ :: rest) => listPref pat s || listInf pat rest

/-- Model of `strings.Contains s pat` (character-wise; the code only uses
ASCII needles). -/
def strContains (s pat : String) : Bool := listInf pat.data s.data

/-- The links extracted for one item: `findLinks(item.Content)`, with a
per-item extraction error logged and treated as zero links. -/
def itemLinks (ph : String → Option Node) (psu : String → Option GoURL)
    (it : feedItem) : List link :=
  match findLinks ph psu it.Content with
  | .error _ => []
  | .ok ls => ls

/- The item loop of `fetch` in app.go:

    for _, item := range feed.Items {
        if !strings.Contains(strings.ToLower(item.Title), "link") { continue }
        links, err := findLinks(item.Content)
        if err != nil { log.Printf("%s: %v\n", item.Title, err) }
        var filtered []*link
        for _, link := range links {
            linkurl, err := url.Parse(link.URL)
            if err == nil && linkurl.Host == feedurl.Host { continue }
            filtered = append(filtered, link)
        }
        if len(links) > 0 {
            all = append(all, &article{Title: item.Title, URL: item.Link,
                Links: filtered, Feed: feed.Title, Date: item.Date})
        }
    }
-/
/-- The item loop of `fetch`: assemble articles from the items, given the
parsed feed URL and the feed title. -/
def assembleItems (ph : String → Option Node) (psu : String → Option GoURL)
    (feedurl : GoURL) (feedTitle : String) : List feedItem → List article
  | [] => []
  | it :: rest =>
    let tail := assembleItems ph psu feedurl feedTitle rest
    if strContains (goToLower it.Title) "link" then
      let links := itemLinks ph psu it
      let filtered := links.filter (fun l =>
        match psu l.URL with
        | some u => !(u.Host == feedurl.Host)
        | none => true)
      if links.length > 0 then
        { ID := 0, Title := it.Title, URL := it.Link, Links := filtered,
          Feed := feedTitle, Date := it.Date } :: tail
      else tail
    else tail

/-- `fetch` from app.go after the external `rss.Fetch` succeeded: parsing
`feed.Link` is the remaining failure mode (`url.Parse` error aborts with
an error, modelled as `none`). -/
def fetchAssemble (ph : String → Option Node) (psu : String → Option GoURL)
    (f : feed) : Option (List article) :=
  match psu f.Link with
  | none => none
  | some feedurl => some (assembleItems ph psu feedurl f.Title f.Items)

/-- Spec-side: what one feed item should contribute, per the claim — an
Article iff the item passes the title filter and its unfiltered extraction
is non-empty, with `Links` exactly the extracted links whose host
(`Domain`) differs from the feed's host. -/
def specAssembleItem (ph : String → Option Node)
    (psu : String → Option GoURL) (feedHost feedTitle : String)
    (it : feedItem) : Option article :=
  if strContains (goToLower it.Title) "link" then
    let ls := itemLinks ph psu it
    if ls.isEmpty then none
    else some { ID := 0, Title := it.Title, URL := it.Link,
                Links := ls.filter (fun l => !(l.Domain == feedHost)),
                Feed := feedTitle, Date := it.Date }
  else none

/-! ### Persisted state and reconciliation (`app.articles` in app.go,
`linkStore` in the store file)

`linkStore.findArticle` / `findLink` run `SELECT * FROM ... WHERE url=?
LIMIT 1` through gorp's `SelectOne` and return `(nil, err)` on any error —
`sql.ErrNoRows` when no row matches — and the first matching row
otherwise.  A lookup is therefore modelled as a function from the URL to
one of: a record, the no-rows outcome, or a database failure carrying an
error message. -/
/-- `articleState` from the store file: a persisted dismissal record. -/
structure articleState where
  ID : Int
  URL : String
  DismissedAt : Int

/-- `linkState` from the store file: a persisted queue record. -/
structure linkState where
  ID : Int
  URL : String
  ArticleURL : String
  QueuedAt : Int

/-- Outcome of a store lookup: the first matching record, the
`sql.ErrNoRows` outcome, or any other database error (its message). -/
inductive DbResult (α : Type) where
  | ok (a : α)
  | noRows
  | err (e : String)

/-- A `findArticle` lookup function (the store as seen by `app.articles`). -/
abbrev ArticleLookup := String → DbResult articleState

/-- A `findLink` lookup function. -/
abbrev LinkLookup := String → DbResult linkState

/-- The error message `app.articles` builds for a failed article lookup. -/
def artLookupMsg (url e : String) : String :=
  "error while looking up article from " ++ url ++ " in DB: " ++ e

/-- The error message `app.articles` builds for a failed link lookup; note
the code interpolates the enclosing article's URL, not the link's. -/
def linkLookupMsg (articleURL e : String) : String :=
  "error while looking up link from " ++ articleURL ++ " in DB: " ++ e

/- The link loop of `app.articles`:

    for _, link := range article.Links {
        state, err := a.store.findLink(link.URL)
        if err != nil && err != sql.ErrNoRows {
            return nil, fmt.Errorf("error while looking up link from %s in DB: %v", article.URL, err)
        }
        if state != nil {
            link.Queued = true
            link.QueuedAt = state.QueuedAt
        }
    }
-/
/-- The link loop of `app.articles`: annotate each link from its
`LinkState`, aborting on a store failure (with the enclosing article's
URL in the message). -/
def annotLinks (fl : LinkLookup) (articleURL : String) :
    List link → Except String (List link)
  | [] => .ok []
  | l :: ls =>
    match fl l.URL with
    | .err e => .error (linkLookupMsg articleURL e)
    | .noRows =>
      match annotLinks fl articleURL ls with
      | .error m => .error m
      | .ok ls' => .ok (l :: ls')
    | .ok st =>
      match annotLinks fl articleURL ls with
      | .error m => .error m
      | .ok ls' => .ok ({ l with Queued := true, QueuedAt := st.QueuedAt } :: ls')

/- The article loop of `app.articles`:

    var filtered []*article
    for _, article := range a.lastFetch {
        state, err := a.store.findArticle(article.URL)
        if err != nil && err != sql.ErrNoRows {
            return nil, fmt.Errorf("error while looking up article from %s in DB: %v", article.URL, err)
        }
        if state != nil && !state.DismissedAt.IsZero() {
            log.Printf("%s is dismissed", article.Title)
            continue
        }
        filtered = append(filtered, article)
        for _, link := range article.Links { ... }
    }

Annotating a retained article's links mutates the link objects that the
article shares with `a.lastFetch`; the filtered output carries the same
(annotated) articles. -/
/-- The article loop of `app.articles` (value of `filtered` before the
sort, or the propagated lookup error). -/
def reconcileLoop (fa : ArticleLookup) (fl : LinkLookup) :
    List article → Except String (List article)
  | [] => .ok []
  | a :: rest =>
    match fa a.URL with
    | .err e => .error (artLookupMsg a.URL e)
    | .ok st =>
      if st.DismissedAt ≠ 0 then reconcileLoop fa fl rest
      else
        match annotLinks fl a.URL a.Links with
        | .error m => .error m
        | .ok ls =>
          match reconcileLoop fa fl rest with
          | .error m => .error m
          | .ok out => .ok ({ a with Links := ls } :: out)
    | .noRows =>
      match annotLinks fl a.URL a.Links with
      | .error m => .error m
      | .ok ls =>
        match reconcileLoop fa fl rest with
        | .error m => .error m
        | .ok out => .ok ({ a with Links := ls } :: out)

/-- One link's annotation as a function (what the loop does to a single
link when no lookup fails). -/
def annot1 (fl : LinkLookup) (l : link) : link :=
  match fl l.URL with
  | .ok st => { l with Queued := true, QueuedAt := st.QueuedAt }
  | _ => l

/-- Spec-side: whether an article is retained (not dismissed), and if so
what it looks like after link annotation. -/
def retainF (fa : ArticleLookup) (fl : LinkLookup) (a : article) :
    Option article :=
  match fa a.URL with
  | .err _ => none
  | .ok st =>
    if st.DismissedAt ≠ 0 then none
    else some { a with Links := a.Links.map (annot1 fl) }
  | .noRows => some { a with Links := a.Links.map (annot1 fl) }

/-- `annotLinks` instrumented with the post-state of the link objects: the
loop mutates each matched link in place, so links the article shares with
the published batch change even though only the `Except` value is
returned.  Second component: the links as they are after the loop (on
abort, links after the failing one are untouched). -/
def annotLinksPost (fl : LinkLookup) (articleURL : String) :
    List link → (Except String (List link)) × List link
  | [] => (.ok [], [])
  | l :: ls =>
    match fl l.URL with
    | .err e => (.error (linkLookupMsg articleURL e), l :: ls)
    | .noRows =>
      let q := annotLinksPost fl articleURL ls
      ((match q.1 with
        | .error m => .error m
        | .ok ls' => .ok (l :: ls')), l :: q.2)
    | .ok st =>
      let l' := { l with Queued := true, QueuedAt := st.QueuedAt }
      let q := annotLinksPost fl articleURL ls
      ((match q.1 with
        | .error m => .error m
        | .ok ls' => .ok (l' :: ls')), l' :: q.2)

/-- The article loop instrumented with the post-state of the input batch
(`a.lastFetch` as observable after `app.articles` ran): dismissed and
unreached articles are untouched, retained articles carry their links
as mutated by the link loop. -/
def reconcileLoopPost (fa : ArticleLookup) (fl : LinkLookup) :
    List article → (Except String (List article)) × List article
  | [] => (.ok [], [])
  | a :: rest =>
    match fa a.URL with
    | .err e => (.error (artLookupMsg a.URL e), a :: rest)
    | .ok st =>
      if st.DismissedAt ≠ 0 then
        let q := reconcileLoopPost fa fl rest
        (q.1, a :: q.2)
      else
        let lq := annotLinksPost fl a.URL a.Links
        let a' := { a with Links := lq.2 }
        match lq.1 with
        | .error m => (.error m, a' :: rest)
        | .ok ls =>
          let q := reconcileLoopPost fa fl rest
          ((match q.1 with
            | .error m => .error m
            | .ok out => .ok ({ a with Links := ls } :: out)), a' :: q.2)
    | .noRows =>
      let lq := annotLinksPost fl a.URL a.Links
      let a' := { a with Links := lq.2 }
      match lq.1 with
      | .error m => (.error m, a' :: rest)
      | .ok ls =>
        let q := reconcileLoopPost fa fl rest
        ((match q.1 with
          | .error m => .error m
          | .ok out => .ok ({ a with Links := ls } :: out)), a' :: q.2)

/-- `annotLinks` instrumented with the outcome of every store lookup it
performs, in order (`true` = the lookup failed with a real error). -/
def annotLinksT (fl : LinkLookup) (articleURL : String) :
    List link → (Except String (List link)) × List Bool
  | [] => (.ok [], [])
  | l :: ls =>
    match fl l.URL with
    | .err e => (.error (linkLookupMsg articleURL e), [true])
    | .noRows =>
      let q := annotLinksT fl articleURL ls
      ((match q.1 with
        | .error m => .error m
        | .ok ls' => .ok (l :: ls')), false :: q.2)
    | .ok st =>
      let q := annotLinksT fl articleURL ls
      ((match q.1 with
        | .error m => .error m
        | .ok ls' => .ok ({ l with Queued := true, QueuedAt := st.QueuedAt } :: ls')),
       false :: q.2)

/-- The article loop instrumented with the outcome of every store lookup
it performs, in order. -/
def reconcileLoopT (fa : ArticleLookup) (fl : LinkLookup) :
    List article → (Except String (List article)) × List Bool
  | [] => (.ok [], [])
  | a :: rest =>
    match fa a.URL with
    | .err e => (.error (artLookupMsg a.URL e), [true])
    | .ok st =>
      if st.DismissedAt ≠ 0 then
        let q := reconcileLoopT fa fl rest
        (q.1, false :: q.2)
      else
        let lq := annotLinksT fl a.URL a.Links
        match lq.1 with
        | .error m => (.error m, false :: lq.2)
        | .ok ls =>
          let q := reconcileLoopT fa fl rest
          ((match q.1 with
            | .error m => .error m
            | .ok out => .ok ({ a with Links := ls } :: out)),
           false :: (lq.2 ++ q.2))
    | .noRows =>
      let lq := annotLinksT fl a.URL a.Links
      match lq.1 with
      | .error m => (.error m, false :: lq.2)
      | .ok ls =>
        let q := reconcileLoopT fa fl rest
        ((match q.1 with
          | .error m => .error m
          | .ok out => .ok ({ a with Links := ls } :: out)),
         false :: (lq.2 ++ q.2))

/-- Is an `Except` value an error? -/
def isErrE {α : Type} : Except String α → Bool
  | .error _ => true
  | .ok _ => false

/-! ### `sort.Sort(byDate(filtered))`

`byDate` (app.go) gives `Len`, `Swap`, and `Less(i,j) =
xs[i].Date.Before(xs[j].Date)`.  `sort.Sort` is the Go standard library's
unstable sort; the program's vintage links the classic implementation
(`src/sort/sort.go`, Go 1.6–1.18): intro-quicksort with median-of-three
(or ninther) pivoting, a heap-sort fallback at depth `2*ceil(lg(n+1))`,
and, for ranges of at most 12 elements, one shell-sort pass with gap 6
followed by insertion sort.  It is embedded below index-for-index; loops
carry an explicit fuel argument that is at least the number of iterations
the Go loop performs, so the embedded functions compute the same result. -/
/-- Positional read of the slice (all in-range where the sort uses it). -/
def aget (xs : List article) (i : Nat) : article := xs.getD i default

/-- `byDate.Swap` / `data.Swap(i, j)`: exchange two positions (identity if
out of range, which the sort never does). -/
def aswap (xs : List article) (i j : Nat) : List article :=
  if i < xs.length ∧ j < xs.length then
    (xs.set i (aget xs j)).set j (aget xs i)
  else xs

/-- `byDate.Less(i, j) = xs[i].Date.Before(xs[j].Date)`. -/
def byDateLess (xs : List article) (i j : Nat) : Bool :=
  decide ((aget xs i).Date < (aget xs j).Date)

/-- The loop of `sort.maxDepth`: count the halvings of `n` down to 0
(fuel-indexed; `n` halvings always suffice). -/
def depthLoop : Nat → Nat → Nat
  | 0, _ => 0
  | f+1, i => if i > 0 then depthLoop f (i / 2) + 1 else 0

/-- `sort.maxDepth(n) = 2 * ceil(lg(n+1))`: heap-sort threshold. -/
def maxDepthGo (n : Nat) : Nat := depthLoop n n * 2

/-- Inner loop of `sort.insertionSort`: move element `j` left while it is
`Less` than its left neighbour and `j > a`. -/
def insInner (a : Nat) : Nat → List article → List article
  | 0, xs => xs
  | j+1, xs =>
    if j+1 > a && byDateLess xs (j+1) j then insInner a j (aswap xs (j+1) j)
    else xs

/-- Outer loop of `sort.insertionSort` over `i ∈ [a+1, b)`. -/
def insOuter (a b : Nat) : Nat → Nat → List article → List article
  | 0, _, xs => xs
  | f+1, i, xs => if i < b then insOuter a b f (i+1) (insInner a i xs) else xs

/-- `sort.insertionSort(data, a, b)`. -/
def insertionSortGo (a b : Nat) (xs : List article) : List article :=
  insOuter a b (b - a) (a + 1) xs

/-- The single shell-sort pass with gap 6 that `sort.quickSort` runs on
ranges of at most 12 elements before insertion-sorting them. -/
def shellPass (a b : Nat) : Nat → Nat → List article → List article
  | 0, _, xs => xs
  | f+1, i, xs =>
    if i < b then
      shellPass a b f (i+1)
        (if byDateLess xs i (i - 6) then aswap xs i (i - 6) else xs)
    else xs

/-- `sort.siftDown(data, root, hi, first)` (fuel-indexed; the root at
least doubles each step, so `hi` units of fuel always suffice). -/
def siftDownGo (hi first : Nat) : Nat → Nat → List article → List article
  | 0, _, xs => xs
  | f+1, root, xs =>
    let child := 2 * root + 1
    if child ≥ hi then xs
    else
      let child :=
        if child + 1 < hi && byDateLess xs (first + child) (first + child + 1)
        then child + 1 else child
      if !(byDateLess xs (first + root) (first + child)) then xs
      else siftDownGo hi first f child (aswap xs (first + root) (first + child))

/-- Heap-construction loop of `sort.heapSort`: `siftDown` at every root
from `(hi-1)/2` down to 0. -/
def heapBuildAux (hi first : Nat) : Nat → List article → List article
  | 0, xs => siftDownGo hi first hi 0 xs
  | i+1, xs => heapBuildAux hi first i (siftDownGo hi first hi (i+1) xs)

/-- Pop loop of `sort.heapSort`: swap the maximum to the end and re-sift,
for `i` from `hi-1` down to 0. -/
def heapPopAux (first : Nat) : Nat → List article → List article
  | 0, xs => siftDownGo 0 first 1 0 (aswap xs first first)
  | i+1, xs =>
    heapPopAux first i
      (siftDownGo (i+1) first (i+2) 0 (aswap xs first (first + i + 1)))

/-- `sort.heapSort(data, a, b)`. -/
def heapSortGo (a b : Nat) (xs : List article) : List article :=
  let hi := b - a
  if hi = 0 then xs
  else heapPopAux a (hi - 1) (heapBuildAux hi a ((hi - 1) / 2) xs)

/-- `sort.medianOfThree(data, m1, m0, m2)`: sort the three elements so the
median ends at `m1`. -/
def medianOfThreeGo (xs : List article) (m1 m0 m2 : Nat) : List article :=
  let xs := if byDateLess xs m1 m0 then aswap xs m1 m0 else xs
  if byDateLess xs m2 m1 then
    let xs := aswap xs m2 m1
    if byDateLess xs m1 m0 then aswap xs m1 m0 else xs
  else xs

/-- `doPivot`'s initial scan: advance `a` while `a < c` and
`Less(a, pivot)`. -/
def scanA (xs : List article) (pivot c : Nat) : Nat → Nat → Nat
  | 0, a => a
  | f+1, a => if a < c && byDateLess xs a pivot then scanA xs pivot c f (a+1) else a

/-- `doPivot`'s forward scan: advance `b` while `b < c` and
`!Less(pivot, b)`. -/
def scanB (xs : List article) (pivot c : Nat) : Nat → Nat → Nat
  | 0, b => b
  | f+1, b => if b < c && !(byDateLess xs pivot b) then scanB xs pivot c f (b+1) else b

/-- `doPivot`'s backward scan: retreat `c` while `b < c` and
`Less(pivot, c-1)`. -/
def scanC (xs : List article) (pivot b : Nat) : Nat → Nat → Nat
  | 0, c => c
  | f+1, c => if b < c && byDateLess xs pivot (c-1) then scanC xs pivot b f (c-1) else c

/-- `doPivot`'s main partition loop. -/
def partLoop (pivot : Nat) : Nat → Nat → Nat → List article → List article × Nat × Nat
  | 0, b, c, xs => (xs, b, c)
  | f+1, b, c, xs =>
    let b1 := scanB xs pivot c (c - b) b
    let c1 := scanC xs pivot b1 (c - b1) c
    if b1 ≥ c1 then (xs, b1, c1)
    else partLoop pivot f (b1 + 1) (c1 - 1) (aswap xs b1 (c1 - 1))

/-- Backward scan of `doPivot`'s duplicate-protection loop. -/
def scanBDown (xs : List article) (pivot a : Nat) : Nat → Nat → Nat
  | 0, b => b
  | f+1, b => if a < b && !(byDateLess xs (b-1) pivot) then scanBDown xs pivot a f (b-1) else b

/-- Forward scan of `doPivot`'s duplicate-protection loop. -/
def scanAUp (xs : List article) (pivot b : Nat) : Nat → Nat → Nat
  | 0, a => a
  | f+1, a => if a < b && byDateLess xs a pivot then scanAUp xs pivot b f (a+1) else a

/-- `doPivot`'s duplicate-protection loop. -/
def protLoop (pivot : Nat) : Nat → Nat → Nat → List article → List article × Nat × Nat
  | 0, a, b, xs => (xs, a, b)
  | f+1, a, b, xs =>
    let b1 := scanBDown xs pivot a (b - a) b
    let a1 := scanAUp xs pivot b1 (b1 - a) a
    if a1 ≥ b1 then (xs, a1, b1)
    else protLoop pivot f (a1 + 1) (b1 - 1) (aswap xs a1 (b1 - 1))

/-- The ninther pivot preparation of `doPivot` (`hi - lo > 40`): Tukey's
median of three medians of three. -/
def ninther (lo hi m : Nat) (xs : List article) : List article :=
  if hi - lo > 40 then
    let s := (hi - lo) / 8
    let xs := medianOfThreeGo xs lo (lo + s) (lo + 2*s)
    let xs := medianOfThreeGo xs m (m - s) (m + s)
    medianOfThreeGo xs (hi - 1) (hi - 1 - s) (hi - 1 - 2*s)
  else xs

/-- The duplicate-probe block of `doPivot`: test up to three points for
equality with the pivot, adjusting `b`, `c` and deciding whether to run
the protection loop.  Returns `(xs, b, c, protect)`. -/
def dupProbe (lo hi m pivot b c : Nat) (protect : Bool) (xs : List article) :
    List article × Nat × Nat × Bool :=
  if !protect && decide (hi - c < (hi - lo) / 4) then
    let p1 := if !(byDateLess xs pivot (hi - 1))
      then (aswap xs c (hi - 1), c + 1, 1) else (xs, c, 0)
    let xs := p1.1
    let c := p1.2.1
    let dups : Nat := p1.2.2
    let p2 := if !(byDateLess xs (b - 1) pivot)
      then (b - 1, dups + 1) else (b, dups)
    let b := p2.1
    let dups := p2.2
    let p3 := if !(byDateLess xs m pivot)
      then (aswap xs m (b - 1), b - 1, dups + 1) else (xs, b, dups)
    (p3.1, p3.2.1, c, decide (p3.2.2 > 1))
  else (xs, b, c, protect)

/-- `sort.doPivot(data, lo, hi)`: choose a pivot (median of three, or of
nine for long ranges), three-way partition, and return `(midlo, midhi)`. -/
def doPivotGo (lo hi : Nat) (xs : List article) : List article × Nat × Nat :=
  let m := (lo + hi) / 2
  let xs := ninther lo hi m xs
  let xs := medianOfThreeGo xs lo m (hi - 1)
  let pivot := lo
  let a := scanA xs pivot (hi - 1) (hi - 1 - (lo + 1)) (lo + 1)
  let r := partLoop pivot hi a (hi - 1) xs
  let r2 := dupProbe lo hi m pivot r.2.1 r.2.2 (decide (hi - r.2.2 < 5)) r.1
  let xs := r2.1
  let b := r2.2.1
  let c := r2.2.2.1
  let protect := r2.2.2.2
  let r3 := if protect then protLoop pivot hi a b xs else (xs, a, b)
  let xs := r3.1
  let b := r3.2.2
  let xs := aswap xs pivot (b - 1)
  (xs, b - 1, c)

/-- `sort.quickSort(data, a, b, maxDepth)` (fuel-indexed; the recursion
depth is below the range length, so `length + 1` always suffices). -/
def quickSortGo : Nat → Nat → Nat → Nat → List article → List article
  | 0, _, _, _, xs => xs
  | f+1, a, b, md, xs =>
    if b - a > 12 then
      if md = 0 then heapSortGo a b xs
      else
        let r := doPivotGo a b xs
        let xs1 := r.1
        let mlo := r.2.1
        let mhi := r.2.2
        if mlo - a < b - mhi then
          quickSortGo f mhi b (md - 1) (quickSortGo f a mlo (md - 1) xs1)
        else
          quickSortGo f a mlo (md - 1) (quickSortGo f mhi b (md - 1) xs1)
    else
      if b - a > 1 then insertionSortGo a b (shellPass a b (b - a) (a + 6) xs)
      else xs

/-- `sort.Sort(byDate(xs))`. -/
def sortSortGo (xs : List article) : List article :=
  quickSortGo (xs.length + 1) 0 xs.length (maxDepthGo xs.length) xs

/-- `app.articles`: reconcile the last fetched batch against the store,
then `sort.Sort(byDate(filtered))`. -/
def appArticles (fa : ArticleLookup) (fl : LinkLookup)
    (lastFetch : List article) : Except String (List article) :=
  match reconcileLoop fa fl lastFetch with
  | .error m => .error m
  | .ok filtered => .ok (sortSortGo filtered)

/-- `app.articles` together with the post-state of the input batch
(the articles of `a.lastFetch` as they are after the call). -/
def appArticlesPost (fa : ArticleLookup) (fl : LinkLookup)
    (lastFetch : List article) : (Except String (List article)) × List article :=
  let q := reconcileLoopPost fa fl lastFetch
  ((match q.1 with
    | .error m => .error m
    | .ok filtered => .ok (sortSortGo filtered)), q.2)

/-! ### Concrete instances

Sample instantiations of the external collaborators (`url.Parse`,
`html.Parse`, the store) and concrete trees/batches, used to evaluate the
definitions at specific inputs. -/
/-- A sample `url.Parse`: resolves the URLs used in the examples, fails on
`"bad url"`. -/
def psuW : String → Option GoURL := fun s =>
  if s = "http://other.com/y" then some ⟨"other.com"⟩
  else if s = "http://example.com/x" then some ⟨"example.com"⟩
  else if s = "http://example.com" then some ⟨"example.com"⟩
  else none

/-- Sample anchor with an uppercase href key and one text child. -/
def anchW : Node :=
  .mk .element "a" "a" [("HREF", "http://other.com/y")]
    [.mk .text "" "hello" [] []]

/-- Sample anchor pointing back into the feed's own site. -/
def anchSelfW : Node :=
  .mk .element "a" "a" [("href", "http://example.com/x")]
    [.mk .text "" "self" [] []]

/-- Sample anchor whose target does not parse. -/
def anchBadW : Node :=
  .mk .element "a" "a" [("href", "bad url")] [.mk .text "" "bad" [] []]

/-- Sample anchor with no href attribute. -/
def anchEmptyW : Node :=
  .mk .element "a" "a" [] [.mk .text "" "empty" [] []]

/-- Sample document tree with one good anchor, one unparseable anchor, one
href-less anchor, one self-link anchor, and loose text. -/
def treeW : Node :=
  .mk .element "div" "div" []
    [anchW, .mk .text "" "tail" [] [], anchBadW, anchEmptyW, anchSelfW]

/-- The link extracted from `anchW`. -/
def linkOtherW : link :=
  { ID := 0, URL := "http://other.com/y", Domain := "other.com",
    Context := "hello ", Queued := false, QueuedAt := 0 }

/-- The link extracted from `anchSelfW`. -/
def linkSelfW : link :=
  { ID := 0, URL := "http://example.com/x", Domain := "example.com",
    Context := "self ", Queued := false, QueuedAt := 0 }

/-- A sample `html.Parse`: parses the document `"doc"` to `treeW`. -/
def phW : String → Option Node := fun s =>
  if s = "doc" then some treeW else none

/-- A sample feed: one matching item with parsable content, one item whose
title fails the filter, one matching item with unparsable content. -/
def fW : feed :=
  { Title := "My FEED", Link := "http://example.com",
    Items :=
      [ { Title := "Assorted links", Link := "http://example.com/post1",
          Content := "doc", Date := 5 },
        { Title := "Essay", Link := "http://example.com/post2",
          Content := "doc", Date := 6 },
        { Title := "More links", Link := "http://example.com/post3",
          Content := "other", Date := 7 } ] }

/-- The article the sample feed assembles to. -/
def artExpectedW : article :=
  { ID := 0, Title := "Assorted links", URL := "http://example.com/post1",
    Links := [linkOtherW], Feed := "My FEED", Date := 5 }

/-- A store whose article lookups always report no rows. -/
def faEmpty : ArticleLookup := fun _ => .noRows

/-- A store whose link lookups always report no rows. -/
def flEmpty : LinkLookup := fun _ => .noRows

/-- A freshly-extracted-looking link used in the reconcile examples. -/
def lnkM : link :=
  { ID := 0, URL := "http://b.com/x", Domain := "b.com", Context := "x ",
    Queued := false, QueuedAt := 0 }

/-- An article carrying `lnkM`, as the fetcher would produce it. -/
def artM : article :=
  { ID := 0, Title := "Post", URL := "http://a.com/post", Links := [lnkM],
    Feed := "F", Date := 3 }

/-- A link-state store holding a queue record for `lnkM.URL` with
timestamp 7. -/
def flQ : LinkLookup := fun u =>
  if u = "http://b.com/x" then
    .ok { ID := 1, URL := "http://b.com/x", ArticleURL := "", QueuedAt := 7 }
  else .noRows

/-- A link-state store failing with a database error on `lnkM.URL`. -/
def flB : LinkLookup := fun u =>
  if u = "http://b.com/x" then .err "boom" else .noRows

/-- An article whose URL has a persisted dismissal. -/
def artD : article :=
  { ID := 0, Title := "Old", URL := "http://a.com/dismissed", Links := [],
    Feed := "F", Date := 1 }

/-- An article-state store dismissing `artD.URL` at time 99. -/
def faW : ArticleLookup := fun u =>
  if u = "http://a.com/dismissed" then
    .ok { ID := 1, URL := "http://a.com/dismissed", DismissedAt := 99 }
  else .noRows

/-- The reconcile example batch: one dismissed article, one retained. -/
def batchW : List article := [artD, artM]

/-- What reconciling `batchW` against `faW`/`flQ` returns. -/
def outW : List article :=
  [{ artM with Links := [{ lnkM with Queued := true, QueuedAt := 7 }] }]

/-- An article already carrying a queued link (not freshly extracted). -/
def artQ : article :=
  { ID := 0, Title := "Q", URL := "http://a.com/q",
    Links := [{ lnkM with Queued := true, QueuedAt := 9 }],
    Feed := "F", Date := 2 }

/-- The eight-article batch exhibiting the instability of `sort.Sort`:
dates 2,1,1,1,1,1,1,0 in input order A0..A7. -/
def batch8 : List article :=
  [ { ID := 0, Title := "A0", URL := "u0", Links := [], Feed := "F", Date := 2 },
    { ID := 0, Title := "A1", URL := "u1", Links := [], Feed := "F", Date := 1 },
    { ID := 0, Title := "A2", URL := "u2", Links := [], Feed := "F", Date := 1 },
    { ID := 0, Title := "A3", URL := "u3", Links := [], Feed := "F", Date := 1 },
    { ID := 0, Title := "A4", URL := "u4", Links := [], Feed := "F", Date := 1 },
    { ID := 0, Title := "A5", URL := "u5", Links := [], Feed := "F", Date := 1 },
    { ID := 0, Title := "A6", URL := "u6", Links := [], Feed := "F", Date := 1 },
    { ID := 0, Title := "A7", URL := "u7", Links := [], Feed := "F", Date := 0 } ]

/-- A visitor that always stops immediately (returns no successor). -/
def stopVisit : Unit → Option Node → Unit × Bool := fun _ _ => ((), false)

/-! ## Theorems -/

theorem linkVisit_some (psu : String → Option GoURL) (acc : List link)
    (n : Node) : linkVisit psu acc (some n) = (acc ++ emitLink psu n, true) := by
  simp only [linkVisit, emitLink]
  split
  · split
    · split <;> simp
    · simp
  · simp

mutual

theorem walk_link_acc (psu : String → Option GoURL) :
    ∀ (n : Node) (acc : List link),
      walkHTML (linkVisit psu) n acc = acc ++ linksRec psu n
  | .mk t a d ats cs, acc => by
    rw [walkHTML, linksRec]
    rw [linkVisit_some]
    simp only
    rw [walk_link_accL psu cs (acc ++ emitLink psu (.mk t a d ats cs))]
    simp [linkVisit]

theorem walk_link_accL (psu : String → Option GoURL) :
    ∀ (cs : List Node) (acc : List link),
      walkHTMLList (linkVisit psu) cs acc = acc ++ linksRecL psu cs
  | [], acc => by simp [walkHTMLList, linksRecL]
  | c :: cs, acc => by
    rw [walkHTMLList, linksRecL, walk_link_acc psu c acc,
        walk_link_accL psu cs]
    simp

end

theorem extractLinks_eq (psu : String → Option GoURL) (n : Node) :
    extractLinks psu n = linksRec psu n := by
  simpa using walk_link_acc psu n []

theorem emitLink_filterMap (psu : String → Option GoURL) (n : Node) :
    emitLink psu n =
      ((if n.ntype = .element ∧ n.dataAtom = "a" then [n] else []).filterMap
        (specLinkOf psu)) := by
  by_cases h : n.ntype = .element ∧ n.dataAtom = "a"
  · simp only [emitLink, specLinkOf, h, if_pos, List.filterMap]
    by_cases h2 : attr n "href" = ""
    · simp [h2]
    · simp only [h2, if_neg, ne_eq, not_false_eq_true, if_true]
      cases psu (attr n "href") <;> simp
  · simp [emitLink, specLinkOf, h]

mutual

theorem linksRec_filterMap (psu : String → Option GoURL) :
    ∀ n : Node, linksRec psu n = (specAnchors n).filterMap (specLinkOf psu)
  | .mk t a d ats cs => by
    rw [linksRec, specAnchors, List.filterMap_append,
        linksRecL_filterMap psu cs, emitLink_filterMap]

theorem linksRecL_filterMap (psu : String → Option GoURL) :
    ∀ cs : List Node,
      linksRecL psu cs = (specAnchorsL cs).filterMap (specLinkOf psu)
  | [] => by simp [linksRecL, specAnchorsL]
  | c :: cs => by
    rw [linksRecL, specAnchorsL, List.filterMap_append,
        linksRec_filterMap psu c, linksRecL_filterMap psu cs]

end

theorem extractLinks_filterMap (psu : String → Option GoURL) (root : Node) :
    extractLinks psu root = (specAnchors root).filterMap (specLinkOf psu) := by
  rw [extractLinks_eq, linksRec_filterMap]

theorem foldl_append_join (l : List String) :
    ∀ s : String, l.foldl (fun a b => a ++ b) s = s ++ String.join l := by
  induction l with
  | nil => intro s; simp [String.join, String.append_empty]
  | cons a t ih =>
    intro s
    have h1 : String.join (a :: t) = a ++ String.join t := by
      show (a :: t).foldl (fun a b => a ++ b) "" = a ++ String.join t
      rw [List.foldl_cons, ih]
      rfl
    rw [h1]
    show t.foldl (fun a b => a ++ b) (s ++ a) = s ++ (a ++ String.join t)
    rw [ih, String.append_assoc]

theorem join_append (as bs : List String) :
    String.join (as ++ bs) = String.join as ++ String.join bs := by
  show (as ++ bs).foldl (fun a b => a ++ b) "" = _
  rw [List.foldl_append, foldl_append_join as, foldl_append_join bs]
  rfl

mutual

theorem walk_flatten_acc :
    ∀ (n : Node) (s : String), walkHTML flattenVisit n s = s ++ flattenRec n
  | .mk t a d ats cs, s => by
    rw [walkHTML, flattenRec]
    show (walkHTMLList flattenVisit cs
      (if (Node.mk t a d ats cs).ntype = .text
        then s ++ (Node.mk t a d ats cs).data ++ " " else s)) = _
    rw [walk_flatten_accL cs]
    split
    · simp [String.append_assoc]
    · rfl

theorem walk_flatten_accL :
    ∀ (cs : List Node) (s : String),
      walkHTMLList flattenVisit cs s = s ++ flattenRecL cs
  | [], s => by rw [walkHTMLList, flattenRecL, String.append_empty]
  | c :: cs, s => by
    rw [walkHTMLList, flattenRecL, walk_flatten_acc c s, walk_flatten_accL cs,
        String.append_assoc]

end

theorem flatten_eq (n : Node) : flatten n = flattenRec n := by
  have h := walk_flatten_acc n ""
  simpa [flatten] using h

mutual

theorem flattenRec_context :
    ∀ n : Node, flattenRec n = specContext n
  | .mk t a d ats cs => by
    rw [flattenRec, specContext, specTextPieces, List.map_append, join_append]
    rw [flattenRecL_context cs]
    show _ = String.join ((if (Node.mk t a d ats cs).ntype = .text
      then [(Node.mk t a d ats cs).data] else []).map (fun t => t ++ " ")) ++ _
    congr 1
    split
    · show _ = String.join [_]
      simp [String.join, String.append_empty]
    · rfl

theorem flattenRecL_context :
    ∀ cs : List Node,
      flattenRecL cs = String.join ((specTextPiecesL cs).map (fun t => t ++ " "))
  | [] => by rw [flattenRecL, specTextPiecesL]; rfl
  | c :: cs => by
    rw [flattenRecL, specTextPiecesL, List.map_append, join_append,
        flattenRec_context c, flattenRecL_context cs, specContext]

end

theorem flatten_context (n : Node) : flatten n = specContext n := by
  rw [flatten_eq, flattenRec_context]

theorem specLinkOf_fields (psu : String → Option GoURL) (a : Node) (l : link)
    (h : specLinkOf psu a = some l) :
    l.URL = attr a "href" ∧ attr a "href" ≠ "" ∧
    (∃ u, psu (attr a "href") = some u ∧ l.Domain = u.Host) ∧
    l.Context = flatten a ∧ l.Queued = false ∧ l.QueuedAt = 0 := by
  unfold specLinkOf at h
  by_cases he : attr a "href" = ""
  · simp [he] at h
  · simp only [he, if_neg, not_false_eq_true, if_false] at h
    cases hp : psu (attr a "href") with
    | none => rw [hp] at h; cases h
    | some u =>
      rw [hp] at h
      cases h
      exact ⟨rfl, he, ⟨u, rfl, rfl⟩, rfl, rfl, rfl⟩

theorem extractLinks_mem (psu : String → Option GoURL) (root : Node)
    (l : link) (h : l ∈ extractLinks psu root) :
    ∃ a ∈ specAnchors root, specLinkOf psu a = some l := by
  rw [extractLinks_filterMap] at h
  exact List.mem_filterMap.mp h

theorem extractLinks_domain (psu : String → Option GoURL) (root : Node)
    (l : link) (h : l ∈ extractLinks psu root) :
    ∃ u, psu l.URL = some u ∧ l.Domain = u.Host := by
  obtain ⟨a, _, hl⟩ := extractLinks_mem psu root l h
  obtain ⟨hurl, _, ⟨u, hu, hd⟩, _⟩ := specLinkOf_fields psu a l hl
  exact ⟨u, by rw [hurl]; exact hu, hd⟩

theorem extractLinks_fresh (psu : String → Option GoURL) (root : Node)
    (l : link) (h : l ∈ extractLinks psu root) :
    l.Queued = false ∧ l.QueuedAt = 0 := by
  obtain ⟨a, _, hl⟩ := extractLinks_mem psu root l h
  obtain ⟨_, _, _, _, hq, hqa⟩ := specLinkOf_fields psu a l hl
  exact ⟨hq, hqa⟩

/-! ### The sort permutes: every operation is a `Swap` -/
theorem cons_set_perm {α : Type} (d x : α) :
    ∀ (t : List α) (k : Nat), k < t.length →
      List.Perm ((t.getD k d) :: (t.set k x)) (x :: t)
  | [], k, h => by simp at h
  | y :: s, 0, _ => by
    simpa using List.Perm.swap x y s
  | y :: s, k+1, h => by
    have hk : k < s.length := by simpa using h
    have step := cons_set_perm d x s k hk
    have e1 : (y :: s).set (k+1) x = y :: s.set k x := rfl
    have e2 : (y :: s).getD (k+1) d = s.getD k d := rfl
    rw [e1, e2]
    exact (List.Perm.swap y (s.getD k d) (s.set k x)).trans
      ((List.Perm.cons y step).trans (List.Perm.swap x y s))

theorem set_set_perm {α : Type} (d : α) :
    ∀ (l : List α) (i j : Nat), i < l.length → j < l.length →
      List.Perm ((l.set i (l.getD j d)).set j (l.getD i d)) l
  | [], i, _, hi, _ => by simp at hi
  | _ :: _, 0, 0, _, _ => by simp
  | x :: t, 0, j+1, _, hj => by
    have hj' : j < t.length := by simpa using hj
    simpa using cons_set_perm d x t j hj'
  | x :: t, i+1, 0, hi, _ => by
    have hi' : i < t.length := by simpa using hi
    simpa using cons_set_perm d x t i hi'
  | x :: t, i+1, j+1, hi, hj => by
    have hi' : i < t.length := by simpa using hi
    have hj' : j < t.length := by simpa using hj
    simpa using List.Perm.cons x (set_set_perm d t i j hi' hj')

theorem aswap_perm (xs : List article) (i j : Nat) :
    List.Perm (aswap xs i j) xs := by
  unfold aswap
  split
  · next h => exact set_set_perm default xs i j h.1 h.2
  · exact List.Perm.refl xs

theorem condSwap_perm (xs : List article) (c : Bool) (i j : Nat) :
    List.Perm (if c then aswap xs i j else xs) xs := by
  split
  · exact aswap_perm xs i j
  · exact List.Perm.refl xs

theorem insInner_perm (a : Nat) :
    ∀ (j : Nat) (xs : List article), List.Perm (insInner a j xs) xs
  | 0, xs => List.Perm.refl xs
  | j+1, xs => by
    rw [insInner]
    split
    · exact (insInner_perm a j _).trans (aswap_perm xs (j+1) j)
    · exact List.Perm.refl xs

theorem insOuter_perm (a b : Nat) :
    ∀ (f i : Nat) (xs : List article), List.Perm (insOuter a b f i xs) xs
  | 0, _, xs => List.Perm.refl xs
  | f+1, i, xs => by
    rw [insOuter]
    split
    · exact (insOuter_perm a b f (i+1) _).trans (insInner_perm a i xs)
    · exact List.Perm.refl xs

theorem insertionSortGo_perm (a b : Nat) (xs : List article) :
    List.Perm (insertionSortGo a b xs) xs :=
  insOuter_perm a b (b - a) (a + 1) xs

theorem shellPass_perm (a b : Nat) :
    ∀ (f i : Nat) (xs : List article), List.Perm (shellPass a b f i xs) xs
  | 0, _, xs => List.Perm.refl xs
  | f+1, i, xs => by
    rw [shellPass]
    split
    · exact (shellPass_perm a b f (i+1) _).trans (condSwap_perm xs _ i (i - 6))
    · exact List.Perm.refl xs

theorem siftDownGo_perm (hi first : Nat) :
    ∀ (f root : Nat) (xs : List article),
      List.Perm (siftDownGo hi first f root xs) xs
  | 0, _, xs => List.Perm.refl xs
  | f+1, root, xs => by
    rw [siftDownGo]
    dsimp only
    repeat' split
    all_goals first
      | exact List.Perm.refl xs
      | exact (siftDownGo_perm hi first f _ _).trans (aswap_perm xs _ _)

theorem heapBuildAux_perm (hi first : Nat) :
    ∀ (i : Nat) (xs : List article), List.Perm (heapBuildAux hi first i xs) xs
  | 0, xs => siftDownGo_perm hi first hi 0 xs
  | i+1, xs =>
    (heapBuildAux_perm hi first i _).trans (siftDownGo_perm hi first hi (i+1) xs)

theorem heapPopAux_perm (first : Nat) :
    ∀ (i : Nat) (xs : List article), List.Perm (heapPopAux first i xs) xs
  | 0, xs => (siftDownGo_perm 0 first 1 0 _).trans (aswap_perm xs first first)
  | i+1, xs =>
    (heapPopAux_perm first i _).trans
      ((siftDownGo_perm (i+1) first (i+2) 0 _).trans
        (aswap_perm xs first (first + i + 1)))

theorem heapSortGo_perm (a b : Nat) (xs : List article) :
    List.Perm (heapSortGo a b xs) xs := by
  simp only [heapSortGo]
  split
  · exact List.Perm.refl xs
  · exact (heapPopAux_perm a _ _).trans (heapBuildAux_perm _ a _ xs)

theorem medianOfThreeGo_perm (xs : List article) (m1 m0 m2 : Nat) :
    List.Perm (medianOfThreeGo xs m1 m0 m2) xs := by
  unfold medianOfThreeGo
  dsimp only
  repeat' split
  all_goals first
    | exact List.Perm.refl xs
    | exact aswap_perm _ _ _
    | exact (aswap_perm _ _ _).trans (aswap_perm _ _ _)
    | exact ((aswap_perm _ _ _).trans (aswap_perm _ _ _)).trans (aswap_perm _ _ _)

theorem ninther_perm (lo hi m : Nat) (xs : List article) :
    List.Perm (ninther lo hi m xs) xs := by
  unfold ninther
  split
  · exact ((medianOfThreeGo_perm _ _ _ _).trans
      (medianOfThreeGo_perm _ _ _ _)).trans (medianOfThreeGo_perm _ _ _ _)
  · exact List.Perm.refl xs

theorem partLoop_perm (pivot : Nat) :
    ∀ (f b c : Nat) (xs : List article), List.Perm (partLoop pivot f b c xs).1 xs
  | 0, _, _, xs => List.Perm.refl xs
  | f+1, b, c, xs => by
    rw [partLoop]
    split
    · exact List.Perm.refl xs
    · exact (partLoop_perm pivot f _ _ _).trans (aswap_perm xs _ _)

theorem protLoop_perm (pivot : Nat) :
    ∀ (f a b : Nat) (xs : List article), List.Perm (protLoop pivot f a b xs).1 xs
  | 0, _, _, xs => List.Perm.refl xs
  | f+1, a, b, xs => by
    rw [protLoop]
    split
    · exact List.Perm.refl xs
    · exact (protLoop_perm pivot f _ _ _).trans (aswap_perm xs _ _)

theorem dupProbe_perm (lo hi m pivot b c : Nat) (protect : Bool)
    (xs : List article) : List.Perm (dupProbe lo hi m pivot b c protect xs).1 xs := by
  unfold dupProbe
  dsimp only
  repeat' split
  all_goals first
    | exact List.Perm.refl xs
    | exact aswap_perm _ _ _
    | exact (aswap_perm _ _ _).trans (aswap_perm _ _ _)
    | exact ((aswap_perm _ _ _).trans (aswap_perm _ _ _)).trans (aswap_perm _ _ _)

theorem doPivotGo_perm (lo hi : Nat) (xs : List article) :
    List.Perm (doPivotGo lo hi xs).1 xs := by
  unfold doPivotGo
  dsimp only
  refine (aswap_perm _ _ _).trans ?_
  split
  · exact (protLoop_perm _ _ _ _ _).trans
      ((dupProbe_perm _ _ _ _ _ _ _ _).trans
        ((partLoop_perm _ _ _ _ _).trans
          ((medianOfThreeGo_perm _ _ _ _).trans (ninther_perm _ _ _ xs))))
  · exact (dupProbe_perm _ _ _ _ _ _ _ _).trans
      ((partLoop_perm _ _ _ _ _).trans
        ((medianOfThreeGo_perm _ _ _ _).trans (ninther_perm _ _ _ xs)))

theorem quickSortGo_perm :
    ∀ (f a b md : Nat) (xs : List article),
      List.Perm (quickSortGo f a b md xs) xs
  | 0, _, _, _, xs => List.Perm.refl xs
  | f+1, a, b, md, xs => by
    rw [quickSortGo]
    dsimp only
    split
    · split
      · exact heapSortGo_perm a b xs
      · split
        · exact ((quickSortGo_perm f _ _ _ _).trans
            (quickSortGo_perm f _ _ _ _)).trans (doPivotGo_perm a b xs)
        · exact ((quickSortGo_perm f _ _ _ _).trans
            (quickSortGo_perm f _ _ _ _)).trans (doPivotGo_perm a b xs)
    · split
      · exact (insertionSortGo_perm a b _).trans (shellPass_perm a b _ _ xs)
      · exact List.Perm.refl xs

theorem sortSortGo_perm (xs : List article) :
    List.Perm (sortSortGo xs) xs :=
  quickSortGo_perm (xs.length + 1) 0 xs.length (maxDepthGo xs.length) xs

theorem sortSortGo_mem (xs : List article) (a : article) :
    a ∈ sortSortGo xs ↔ a ∈ xs :=
  (sortSortGo_perm xs).mem_iff

/-! ### Characterizing the reconcile loop -/
theorem annotLinks_ok (fl : LinkLookup) (u : String) :
    ∀ (ls ls' : List link), annotLinks fl u ls = .ok ls' →
      ls' = ls.map (annot1 fl)
  | [], ls', h => by
    simp only [annotLinks] at h
    cases h
    rfl
  | l :: ls, ls', h => by
    rw [annotLinks] at h
    cases hfl : fl l.URL with
    | err e => rw [hfl] at h; cases h
    | noRows =>
      rw [hfl] at h
      cases hrec : annotLinks fl u ls with
      | error m => rw [hrec] at h; cases h
      | ok ls2 =>
        rw [hrec] at h
        cases h
        simp only [List.map_cons, annot1, hfl]
        rw [annotLinks_ok fl u ls ls2 hrec]
    | ok st =>
      rw [hfl] at h
      cases hrec : annotLinks fl u ls with
      | error m => rw [hrec] at h; cases h
      | ok ls2 =>
        rw [hrec] at h
        cases h
        simp only [List.map_cons, annot1, hfl]
        rw [annotLinks_ok fl u ls ls2 hrec]

theorem annotLinks_err (fl : LinkLookup) (u : String) :
    ∀ (ls : List link) (m : String), annotLinks fl u ls = .error m →
      ∃ l ∈ ls, ∃ e, fl l.URL = .err e ∧ m = linkLookupMsg u e
  | [], m, h => by rw [annotLinks] at h; cases h
  | l :: ls, m, h => by
    rw [annotLinks] at h
    cases hfl : fl l.URL with
    | err e =>
      rw [hfl] at h
      cases h
      exact ⟨l, by simp, e, hfl, rfl⟩
    | noRows =>
      rw [hfl] at h
      cases hrec : annotLinks fl u ls with
      | error m2 =>
        rw [hrec] at h
        cases h
        obtain ⟨l2, hl2, e, he, hm⟩ := annotLinks_err fl u ls m hrec
        exact ⟨l2, by simp [hl2], e, he, hm⟩
      | ok ls2 => rw [hrec] at h; cases h
    | ok st =>
      rw [hfl] at h
      cases hrec : annotLinks fl u ls with
      | error m2 =>
        rw [hrec] at h
        cases h
        obtain ⟨l2, hl2, e, he, hm⟩ := annotLinks_err fl u ls m hrec
        exact ⟨l2, by simp [hl2], e, he, hm⟩
      | ok ls2 => rw [hrec] at h; cases h

theorem annotLinks_total (fl : LinkLookup) (u : String) :
    ∀ ls : List link, (∀ l ∈ ls, ∀ e, fl l.URL ≠ .err e) →
      annotLinks fl u ls = .ok (ls.map (annot1 fl))
  | [], _ => by simp [annotLinks]
  | l :: ls, h => by
    have hrec := annotLinks_total fl u ls (fun l2 hl2 e => h l2 (by simp [hl2]) e)
    rw [annotLinks]
    cases hfl : fl l.URL with
    | err e => exact absurd hfl (h l (by simp) e)
    | noRows => rw [hrec]; simp [annot1, hfl]
    | ok st => rw [hrec]; simp [annot1, hfl]

theorem reconcileLoop_ok (fa : ArticleLookup) (fl : LinkLookup) :
    ∀ (batch res : List article), reconcileLoop fa fl batch = .ok res →
      res = batch.filterMap (retainF fa fl)
  | [], res, h => by
    rw [reconcileLoop] at h
    cases h
    rfl
  | a :: rest, res, h => by
    rw [reconcileLoop] at h
    rw [List.filterMap_cons]
    split at h
    · cases h
    · rename_i st heq
      split at h
      · rename_i hd
        simp only [retainF, heq, if_pos hd]
        exact reconcileLoop_ok fa fl rest res h
      · rename_i hd
        split at h
        · cases h
        · rename_i ls hal
          split at h
          · cases h
          · rename_i out hrec
            cases h
            simp only [retainF, heq, if_neg hd]
            rw [annotLinks_ok fl a.URL a.Links ls hal,
                reconcileLoop_ok fa fl rest out hrec]
    · rename_i heq
      split at h
      · cases h
      · rename_i ls hal
        split at h
        · cases h
        · rename_i out hrec
          cases h
          simp only [retainF, heq]
          rw [annotLinks_ok fl a.URL a.Links ls hal,
              reconcileLoop_ok fa fl rest out hrec]

theorem reconcileLoop_err (fa : ArticleLookup) (fl : LinkLookup) :
    ∀ (batch : List article) (m : String), reconcileLoop fa fl batch = .error m →
      ∃ a ∈ batch, ∃ e,
        (fa a.URL = .err e ∧ m = artLookupMsg a.URL e) ∨
        (∃ l ∈ a.Links, fl l.URL = .err e ∧ m = linkLookupMsg a.URL e)
  | [], m, h => by rw [reconcileLoop] at h; cases h
  | a :: rest, m, h => by
    rw [reconcileLoop] at h
    split at h
    · rename_i e heq
      cases h
      exact ⟨a, by simp, e, Or.inl ⟨heq, rfl⟩⟩
    · rename_i st heq
      split at h
      · obtain ⟨a2, ha2, e, hcase⟩ := reconcileLoop_err fa fl rest m h
        exact ⟨a2, by simp [ha2], e, hcase⟩
      · split at h
        · rename_i m2 hal
          cases h
          obtain ⟨l, hl, e, he, hm⟩ := annotLinks_err fl a.URL a.Links m hal
          exact ⟨a, by simp, e, Or.inr ⟨l, hl, he, hm⟩⟩
        · split at h
          · rename_i m2 hrec
            cases h
            obtain ⟨a2, ha2, e, hcase⟩ := reconcileLoop_err fa fl rest m hrec
            exact ⟨a2, by simp [ha2], e, hcase⟩
          · cases h
    · rename_i heq
      split at h
      · rename_i m2 hal
        cases h
        obtain ⟨l, hl, e, he, hm⟩ := annotLinks_err fl a.URL a.Links m hal
        exact ⟨a, by simp, e, Or.inr ⟨l, hl, he, hm⟩⟩
      · split at h
        · rename_i m2 hrec
          cases h
          obtain ⟨a2, ha2, e, hcase⟩ := reconcileLoop_err fa fl rest m hrec
          exact ⟨a2, by simp [ha2], e, hcase⟩
        · cases h

theorem reconcileLoop_total (fa : ArticleLookup) (fl : LinkLookup) :
    ∀ batch : List article,
      (∀ a ∈ batch, ∀ e, fa a.URL ≠ .err e) →
      (∀ a ∈ batch, ∀ l ∈ a.Links, ∀ e, fl l.URL ≠ .err e) →
      reconcileLoop fa fl batch = .ok (batch.filterMap (retainF fa fl))
  | [], _, _ => by rw [reconcileLoop]; rfl
  | a :: rest, hfa, hfl => by
    have hrec := reconcileLoop_total fa fl rest
      (fun a2 h2 => hfa a2 (by simp [h2]))
      (fun a2 h2 => hfl a2 (by simp [h2]))
    have hal := annotLinks_total fl a.URL a.Links (hfl a (by simp))
    rw [reconcileLoop, List.filterMap_cons]
    cases hfa2 : fa a.URL with
    | err e => exact absurd hfa2 (hfa a (by simp) e)
    | ok st =>
      by_cases hd : st.DismissedAt ≠ 0
      · simp only [retainF, hfa2, if_pos hd, hrec]
      · simp only [retainF, hfa2, if_neg hd, hal, hrec]
    | noRows => simp only [retainF, hfa2, hal, hrec]

theorem annotLinksT_fst (fl : LinkLookup) (u : String) :
    ∀ ls : List link, (annotLinksT fl u ls).1 = annotLinks fl u ls
  | [] => rfl
  | l :: ls => by
    rw [annotLinksT, annotLinks]
    cases hfl : fl l.URL <;>
      simp only [hfl, annotLinksT_fst fl u ls]

theorem reconcileLoopT_fst (fa : ArticleLookup) (fl : LinkLookup) :
    ∀ batch : List article,
      (reconcileLoopT fa fl batch).1 = reconcileLoop fa fl batch
  | [] => rfl
  | a :: rest => by
    rw [reconcileLoopT, reconcileLoop]
    cases hfa : fa a.URL
    case err e => rfl
    case ok st =>
      dsimp only
      simp only [annotLinksT_fst fl a.URL, reconcileLoopT_fst fa fl rest]
      split
      · rfl
      · cases annotLinks fl a.URL a.Links <;> rfl
    case noRows =>
      dsimp only
      simp only [annotLinksT_fst fl a.URL, reconcileLoopT_fst fa fl rest]
      cases annotLinks fl a.URL a.Links <;> rfl

theorem annotLinksT_any (fl : LinkLookup) (u : String) :
    ∀ ls : List link,
      isErrE (annotLinksT fl u ls).1 = (annotLinksT fl u ls).2.any (fun b => b)
  | [] => rfl
  | l :: ls => by
    have ih := annotLinksT_any fl u ls
    rw [annotLinksT]
    cases hfl : fl l.URL
    case ok st =>
      dsimp only
      cases hq : (annotLinksT fl u ls).1 <;> rw [hq] at ih <;>
        simp_all [isErrE]
    case noRows =>
      dsimp only
      cases hq : (annotLinksT fl u ls).1 <;> rw [hq] at ih <;>
        simp_all [isErrE]
    case err e => simp [isErrE]

theorem reconcileLoopT_any (fa : ArticleLookup) (fl : LinkLookup) :
    ∀ batch : List article,
      isErrE (reconcileLoopT fa fl batch).1 =
        (reconcileLoopT fa fl batch).2.any (fun b => b)
  | [] => rfl
  | a :: rest => by
    have ih := reconcileLoopT_any fa fl rest
    have ihl := annotLinksT_any fl a.URL a.Links
    rw [reconcileLoopT]
    cases hfa : fa a.URL
    case err e => simp [isErrE]
    case ok st =>
      dsimp only
      split
      · cases hq : (reconcileLoopT fa fl rest).1 <;> rw [hq] at ih <;>
          simp_all [isErrE]
      · cases hl : (annotLinksT fl a.URL a.Links).1 <;> rw [hl] at ihl
        · simp_all [isErrE]
        · dsimp only
          cases hq : (reconcileLoopT fa fl rest).1 <;> rw [hq] at ih <;>
            simp_all [isErrE]
    case noRows =>
      dsimp only
      cases hl : (annotLinksT fl a.URL a.Links).1 <;> rw [hl] at ihl
      · simp_all [isErrE]
      · dsimp only
        cases hq : (reconcileLoopT fa fl rest).1 <;> rw [hq] at ih <;>
          simp_all [isErrE]

/-! ### Assembly refines its per-item specification -/
theorem itemLinks_domain (ph : String → Option Node) (psu : String → Option GoURL)
    (it : feedItem) (l : link) (h : l ∈ itemLinks ph psu it) :
    ∃ u, psu l.URL = some u ∧ l.Domain = u.Host := by
  unfold itemLinks findLinks at h
  cases hp : ph it.Content with
  | none => rw [hp] at h; simp at h
  | some root =>
    rw [hp] at h
    exact extractLinks_domain psu root l h

theorem assembleItems_eq (ph : String → Option Node)
    (psu : String → Option GoURL) (feedurl : GoURL) (ftitle : String) :
    ∀ items : List feedItem,
      assembleItems ph psu feedurl ftitle items =
        items.filterMap (specAssembleItem ph psu feedurl.Host ftitle)
  | [] => rfl
  | it :: rest => by
    have ih := assembleItems_eq ph psu feedurl ftitle rest
    rw [assembleItems, List.filterMap_cons]
    by_cases ht : strContains (goToLower it.Title) "link"
    · rw [if_pos ht]
      have hfilter :
          (itemLinks ph psu it).filter (fun l =>
            match psu l.URL with
            | some u => !(u.Host == feedurl.Host)
            | none => true) =
          (itemLinks ph psu it).filter (fun l => !(l.Domain == feedurl.Host)) := by
        refine List.filter_congr ?_
        intro l hl
        obtain ⟨u, hu, hd⟩ := itemLinks_domain ph psu it l hl
        rw [hu, hd]
      by_cases hlen : (itemLinks ph psu it).length > 0
      · rw [if_pos hlen]
        have hne : (itemLinks ph psu it).isEmpty = false := by
          cases hcase : itemLinks ph psu it with
          | nil => rw [hcase] at hlen; simp at hlen
          | cons x xs => simp [hcase]
        simp only [specAssembleItem, if_pos ht, hne]
        rw [ih, hfilter]
        rfl
      · rw [if_neg hlen]
        have hempty : (itemLinks ph psu it).isEmpty = true := by
          cases hcase : itemLinks ph psu it with
          | nil => simp [hcase]
          | cons x xs => rw [hcase] at hlen; simp at hlen
        simp only [specAssembleItem, if_pos ht, hempty]
        exact ih
    · rw [if_neg ht]
      simp only [specAssembleItem, if_neg ht]
      exact ih

/-! ### The traversal terminates: fuel convergence at the tree height -/
mutual

theorem walkFuel_eq {σ : Type} (visit : σ → Option Node → σ × Bool) :
    ∀ (k : Nat) (n : Node) (s : σ), heightN n ≤ k →
      walkHTMLFuel visit k n s = some (walkHTML visit n s)
  | 0, .mk t a d ats cs, _, h => by
    rw [heightN] at h
    omega
  | k+1, .mk t a d ats cs, s, h => by
    rw [heightN] at h
    have hcs : heightL cs ≤ k := by omega
    rw [walkHTMLFuel, walkHTML]
    dsimp only
    by_cases hc : (visit s (some (Node.mk t a d ats cs))).2 = true
    · rw [if_pos hc, if_pos hc, walkListFuel_eq visit k cs _ hcs]
    · rw [if_neg hc, if_neg hc]
termination_by k n _ _ => (k, sizeOf n)

theorem walkListFuel_eq {σ : Type} (visit : σ → Option Node → σ × Bool) :
    ∀ (k : Nat) (cs : List Node) (s : σ), heightL cs ≤ k →
      walkHTMLListFuel visit k cs s = some (walkHTMLList visit cs s)
  | _, [], s, _ => by rw [walkHTMLListFuel, walkHTMLList]
  | k, c :: cs, s, h => by
    rw [heightL] at h
    rw [walkHTMLListFuel, walkHTMLList]
    rw [walkFuel_eq visit k c s (le_trans (le_max_left _ _) h)]
    exact walkListFuel_eq visit k cs _ (le_trans (le_max_right _ _) h)
termination_by k cs _ _ => (k, sizeOf cs)

end

/-! ### The trace agrees with the walk -/
mutual

theorem walkTrace_fst {σ : Type} (visit : σ → Option Node → σ × Bool) :
    ∀ (n : Node) (s : σ), (walkHTMLTrace visit n s).1 = walkHTML visit n s
  | .mk t a d ats cs, s => by
    rw [walkHTMLTrace, walkHTML]
    dsimp only
    by_cases hc : (visit s (some (Node.mk t a d ats cs))).2 = true
    · rw [if_pos hc, if_pos hc, walkListTrace_fst visit cs _]
    · rw [if_neg hc, if_neg hc]

theorem walkListTrace_fst {σ : Type} (visit : σ → Option Node → σ × Bool) :
    ∀ (cs : List Node) (s : σ),
      (walkHTMLListTrace visit cs s).1 = walkHTMLList visit cs s
  | [], s => by rw [walkHTMLListTrace, walkHTMLList]
  | c :: cs, s => by
    rw [walkHTMLListTrace, walkHTMLList]
    dsimp only
    rw [walkTrace_fst visit c s]
    exact walkListTrace_fst visit cs _

end

theorem countNone_append (t1 t2 : List (Option Node)) :
    countNone (t1 ++ t2) = countNone t1 + countNone t2 := by
  induction t1 with
  | nil => simp [countNone]
  | cons x t ih =>
    cases x with
    | none => simp [countNone, ih]; omega
    | some n => simp [countNone, ih]

theorem retainF_some (fa : ArticleLookup) (fl : LinkLookup) (a b : article)
    (h : retainF fa fl a = some b) :
    b = { a with Links := a.Links.map (annot1 fl) } ∧
    (fa a.URL = .noRows ∨ ∃ st, fa a.URL = .ok st ∧ st.DismissedAt = 0) := by
  unfold retainF at h
  split at h
  · cases h
  · rename_i st heq
    split at h
    · cases h
    · rename_i hd
      cases h
      exact ⟨rfl, Or.inr ⟨st, heq, by omega⟩⟩
  · rename_i heq
    cases h
    exact ⟨rfl, Or.inl heq⟩

theorem retainF_retained (fa : ArticleLookup) (fl : LinkLookup) (a : article)
    (h : fa a.URL = .noRows ∨ ∃ st, fa a.URL = .ok st ∧ st.DismissedAt = 0) :
    retainF fa fl a = some { a with Links := a.Links.map (annot1 fl) } := by
  unfold retainF
  rcases h with h | ⟨st, hst, hz⟩
  · simp only [h]
  · simp only [hst, hz]
    simp

theorem annot1_url (fl : LinkLookup) (l : link) : (annot1 fl l).URL = l.URL := by
  unfold annot1
  cases fl l.URL <;> rfl

theorem annot1_ok (fl : LinkLookup) (l : link) (st : linkState)
    (h : fl l.URL = .ok st) :
    annot1 fl l = { l with Queued := true, QueuedAt := st.QueuedAt } := by
  unfold annot1
  rw [h]

theorem annot1_noRows (fl : LinkLookup) (l : link) (h : fl l.URL = .noRows) :
    annot1 fl l = l := by
  unfold annot1
  rw [h]

theorem appArticles_ok (fa : ArticleLookup) (fl : LinkLookup)
    (batch out : List article) (h : appArticles fa fl batch = .ok out) :
    out = sortSortGo (batch.filterMap (retainF fa fl)) := by
  unfold appArticles at h
  cases hrec : reconcileLoop fa fl batch with
  | error m => rw [hrec] at h; cases h
  | ok filtered =>
    rw [hrec] at h
    cases h
    rw [reconcileLoop_ok fa fl batch filtered hrec]

theorem appArticles_err (fa : ArticleLookup) (fl : LinkLookup)
    (batch : List article) (m : String) :
    appArticles fa fl batch = .error m ↔ reconcileLoop fa fl batch = .error m := by
  unfold appArticles
  cases reconcileLoop fa fl batch <;> simp

theorem appArticles_isErr (fa : ArticleLookup) (fl : LinkLookup)
    (batch : List article) :
    isErrE (appArticles fa fl batch) = isErrE (reconcileLoop fa fl batch) := by
  unfold appArticles
  cases reconcileLoop fa fl batch <;> rfl

theorem appArticles_mem (fa : ArticleLookup) (fl : LinkLookup)
    (batch out : List article) (h : appArticles fa fl batch = .ok out)
    (b : article) : b ∈ out ↔ b ∈ batch.filterMap (retainF fa fl) := by
  rw [appArticles_ok fa fl batch out h]
  exact sortSortGo_mem _ b

/-! ### Claim theorems -/
/-- Claim C1: over any parsed HTML tree, link extraction emits exactly one
Link per anchor element (in document order) whose href-equivalent
attribute — looked up case-insensitively on the key — is present,
non-empty and parses as a URL; anchors with an absent/empty target or an
unparseable target yield no Link and do not affect the Links of other
anchors; each emitted Link has `URL` the raw attribute value and `Domain`
the parsed host. -/
theorem C1_link_extraction (psu : String → Option GoURL) (root : Node) :
    extractLinks psu root = (specAnchors root).filterMap (specLinkOf psu) ∧
    ∀ l ∈ extractLinks psu root, ∃ u, psu l.URL = some u ∧ l.Domain = u.Host := by
  refine ⟨extractLinks_filterMap psu root, ?_⟩
  intro l hl
  exact extractLinks_domain psu root l hl

/-- Witness for C1 at a concrete tree and parser. -/
theorem C1_link_extraction_witness :
    (extractLinks psuW treeW = (specAnchors treeW).filterMap (specLinkOf psuW)) ∧
    (linkOtherW ∈ extractLinks psuW treeW) ∧
    (∃ u, psuW linkOtherW.URL = some u ∧ linkOtherW.Domain = u.Host) ∧
    extractLinks psuW treeW = [linkOtherW, linkSelfW] := by
  have hm : linkOtherW ∈ extractLinks psuW treeW := by
    have : extractLinks psuW treeW = [linkOtherW, linkSelfW] := by rfl
    rw [this]
    simp
  exact ⟨(C1_link_extraction psuW treeW).1, hm,
    (C1_link_extraction psuW treeW).2 linkOtherW hm, by rfl⟩

/-- Claim C2: for a feed whose own link parses, every item that passes the
title filter yields an Article iff its unfiltered extraction found at
least one link, and the emitted Article's `Links` are exactly the
extracted links whose host differs from the feed's host; an item whose
every link is a self-link is still emitted, with empty `Links`. -/
theorem C2_article_assembly (ph : String → Option Node)
    (psu : String → Option GoURL) (f : feed) (u : GoURL)
    (h : psu f.Link = some u) :
    fetchAssemble ph psu f =
      some (f.Items.filterMap (specAssembleItem ph psu u.Host f.Title)) := by
  unfold fetchAssemble
  rw [h]
  show some (assembleItems ph psu u f.Title f.Items) = _
  rw [assembleItems_eq]

/-- Witness for C2 at a concrete feed: the matching item keeps only the
non-self link; the unparsable-content item is dropped. -/
theorem C2_article_assembly_witness :
    psuW fW.Link = some ⟨"example.com"⟩ ∧
    fetchAssemble phW psuW fW =
      some (fW.Items.filterMap (specAssembleItem phW psuW "example.com" fW.Title)) ∧
    fW.Items.filterMap (specAssembleItem phW psuW "example.com" fW.Title) =
      [artExpectedW] :=
  ⟨rfl, C2_article_assembly phW psuW fW ⟨"example.com"⟩ rfl, by rfl⟩

/-- Counterexample to claim C3 as stated: for a batch whose link already
carries `Queued = true` (not freshly extracted), a link with no matching
LinkState still comes out with `Queued = true`, so the unqualified
"a link with no matching LinkState has Queued=false" is false. -/
theorem C3_reconcile_state_cex :
    ¬ (∀ out : List article, appArticles faEmpty flEmpty [artQ] = .ok out →
        ∀ b ∈ out, ∀ l ∈ b.Links, flEmpty l.URL = .noRows → l.Queued = false) := by
  intro h
  have hq := h [artQ] (by rfl) artQ (by simp)
    { lnkM with Queued := true, QueuedAt := 9 } (by simp [artQ]) rfl
  simp at hq

/-- Claim C3 (amended): an article whose URL has a persisted dismissal
with non-zero `DismissedAt` is absent from the output; every retained
article appears, its links annotated; a link whose URL has a persisted
LinkState appears with `Queued = true` and `QueuedAt` the stored
timestamp; a link with no matching LinkState is left unchanged — in
particular it has `Queued = false` whenever the input batch's links are
freshly extracted (`Queued = false` on input). -/
theorem C3_reconcile_state (fa : ArticleLookup) (fl : LinkLookup)
    (batch out : List article) (h : appArticles fa fl batch = .ok out) :
    (∀ a ∈ batch, ∀ st, fa a.URL = .ok st → st.DismissedAt ≠ 0 →
       ∀ b ∈ out, b.URL ≠ a.URL) ∧
    (∀ a ∈ batch,
       (fa a.URL = .noRows ∨ ∃ st, fa a.URL = .ok st ∧ st.DismissedAt = 0) →
       { a with Links := a.Links.map (annot1 fl) } ∈ out) ∧
    (∀ b ∈ out, ∀ l ∈ b.Links, ∀ st, fl l.URL = .ok st →
       l.Queued = true ∧ l.QueuedAt = st.QueuedAt) ∧
    ((∀ a ∈ batch, ∀ l ∈ a.Links, l.Queued = false) →
       ∀ b ∈ out, ∀ l ∈ b.Links, fl l.URL = .noRows → l.Queued = false) := by
  have hmem := appArticles_mem fa fl batch out h
  refine ⟨?_, ?_, ?_, ?_⟩
  · intro a ha st hst hdis b hb hurl
    obtain ⟨a2, ha2, hret⟩ := List.mem_filterMap.mp ((hmem b).mp hb)
    obtain ⟨hbeq, hcond⟩ := retainF_some fa fl a2 b hret
    have hu2 : a2.URL = a.URL := by rw [← hurl, hbeq]
    rcases hcond with hn | ⟨st2, hst2, hz⟩
    · rw [hu2, hst] at hn; cases hn
    · rw [hu2, hst] at hst2
      cases hst2
      exact hdis hz
  · intro a ha hcond
    refine (hmem _).mpr (List.mem_filterMap.mpr ⟨a, ha, ?_⟩)
    exact retainF_retained fa fl a hcond
  · intro b hb l hl st hst
    obtain ⟨a2, ha2, hret⟩ := List.mem_filterMap.mp ((hmem b).mp hb)
    obtain ⟨hbeq, _⟩ := retainF_some fa fl a2 b hret
    rw [hbeq] at hl
    simp only [List.mem_map] at hl
    obtain ⟨l0, hl0, hle⟩ := hl
    cases hfl : fl l0.URL with
    | err e =>
      rw [← hle, annot1, hfl] at hst
      rw [hfl] at hst
      cases hst
    | noRows =>
      rw [← hle, annot1_noRows fl l0 hfl] at hst
      rw [hfl] at hst
      cases hst
    | ok st0 =>
      rw [← hle, annot1_ok fl l0 st0 hfl]
      rw [← hle, annot1_ok fl l0 st0 hfl] at hst
      simp only at hst
      rw [hfl] at hst
      cases hst
      exact ⟨rfl, rfl⟩
  · intro hfresh b hb l hl hfl
    obtain ⟨a2, ha2, hret⟩ := List.mem_filterMap.mp ((hmem b).mp hb)
    obtain ⟨hbeq, _⟩ := retainF_some fa fl a2 b hret
    rw [hbeq] at hl
    simp only [List.mem_map] at hl
    obtain ⟨l0, hl0, hle⟩ := hl
    cases hfl0 : fl l0.URL with
    | err e =>
      rw [← hle, annot1, hfl0] at hfl
      rw [hfl0] at hfl
      cases hfl
    | ok st0 =>
      rw [← hle, annot1_ok fl l0 st0 hfl0] at hfl
      simp only at hfl
      rw [hfl0] at hfl
      cases hfl
    | noRows =>
      rw [← hle, annot1_noRows fl l0 hfl0]
      exact hfresh a2 ha2 l0 hl0

/-- Witness for C3 (amended) at a concrete batch and store: the dismissed
article vanishes, the retained one appears with its link queued at the
stored timestamp. -/
theorem C3_reconcile_state_witness :
    appArticles faW flQ batchW = .ok outW ∧
    (∀ b ∈ outW, b.URL ≠ artD.URL) ∧
    ({ artM with Links := artM.Links.map (annot1 flQ) } ∈ outW) ∧
    (∀ b ∈ outW, ∀ l ∈ b.Links, ∀ st, flQ l.URL = .ok st →
       l.Queued = true ∧ l.QueuedAt = st.QueuedAt) := by
  have h : appArticles faW flQ batchW = .ok outW := by rfl
  have thm := C3_reconcile_state faW flQ batchW outW h
  refine ⟨h, ?_, thm.2.1 artM (by simp [batchW]) (Or.inl rfl), thm.2.2.1⟩
  intro b hb
  exact thm.1 artD (by simp [batchW])
    { ID := 1, URL := "http://a.com/dismissed", DismissedAt := 99 }
    rfl (by norm_num) b hb

/-- Claim C4 demonstration (code bug): `app.articles` sorts with
`sort.Sort`, which is not stable.  On a batch of eight articles with
dates 2,1,1,1,1,1,1,0 (titles A0..A7 in input order), the shell-sort pass
with gap 6 swaps A6 in front of the block of equal-dated articles, and
the final order of the date-1 articles is A6, A2, A3, A4, A5, A1 — A6
now precedes A1..A5 although it followed them in the input.  The output
is still sorted ascending by date. -/
theorem C4_sort_unstable_demo :
    batch8.map article.Title = ["A0", "A1", "A2", "A3", "A4", "A5", "A6", "A7"] ∧
    batch8.map article.Date = [2, 1, 1, 1, 1, 1, 1, 0] ∧
    appArticles faEmpty flEmpty batch8 = .ok (sortSortGo batch8) ∧
    (sortSortGo batch8).map article.Title =
      ["A7", "A6", "A2", "A3", "A4", "A5", "A1", "A0"] ∧
    (sortSortGo batch8).map article.Date = [0, 1, 1, 1, 1, 1, 1, 2] :=
  ⟨by rfl, by rfl, by rfl, by rfl, by rfl⟩

/-- Claim C5 demonstration (code bug): `app.articles` queues a link by
assigning through the pointer shared with the published batch; after the
call the batch's own link shows `Queued = true, QueuedAt = 7` although it
went in as `Queued = false, QueuedAt = 0` — the published batch is
mutated in place. -/
theorem C5_batch_mutation_demo :
    artM.Links.map (fun l => (l.Queued, l.QueuedAt)) = [(false, 0)] ∧
    (appArticlesPost faEmpty flQ [artM]).1 = .ok outW ∧
    (appArticlesPost faEmpty flQ [artM]).2 = outW ∧
    (appArticlesPost faEmpty flQ [artM]).2 ≠ [artM] ∧
    ((appArticlesPost faEmpty flQ [artM]).2.map
      (fun a => a.Links.map (fun l => (l.Queued, l.QueuedAt)))) = [[(true, 7)]] :=
  ⟨by rfl, by rfl, by rfl, by decide, by rfl⟩

/-- Counterexample to claim C6 as stated: when a link lookup fails, the
propagated error is annotated with the enclosing article's URL, not with
the URL whose lookup failed — the failing link URL does not occur in the
message at all. -/
theorem C6_reconcile_errors_cex :
    appArticles faEmpty flB [artM] = .error (linkLookupMsg "http://a.com/post" "boom") ∧
    lnkM ∈ artM.Links ∧
    flB lnkM.URL = .err "boom" ∧
    strContains (linkLookupMsg "http://a.com/post" "boom") lnkM.URL = false :=
  ⟨by rfl, by simp [artM], by rfl, by rfl⟩

/-- Claim C6 (amended): reconcile returns an error iff one of the store
lookups it performs fails with a real error (no-rows is not an error); a
lookup failure aborts the whole reconciliation with no partial result,
and the error is annotated with the URL of the article being processed
(for a failed link lookup, the article's URL, not the link's); when no
lookup fails, the whole batch reconciles. -/
theorem C6_reconcile_errors (fa : ArticleLookup) (fl : LinkLookup)
    (batch : List article) :
    (isErrE (appArticles fa fl batch) =
      (reconcileLoopT fa fl batch).2.any (fun b => b)) ∧
    (∀ m, appArticles fa fl batch = .error m →
      ∃ a ∈ batch, ∃ e,
        (fa a.URL = .err e ∧ m = artLookupMsg a.URL e) ∨
        (∃ l ∈ a.Links, fl l.URL = .err e ∧ m = linkLookupMsg a.URL e)) ∧
    ((∀ a ∈ batch, ∀ e, fa a.URL ≠ .err e) →
     (∀ a ∈ batch, ∀ l ∈ a.Links, ∀ e, fl l.URL ≠ .err e) →
     appArticles fa fl batch =
       .ok (sortSortGo (batch.filterMap (retainF fa fl)))) := by
  refine ⟨?_, ?_, ?_⟩
  · rw [appArticles_isErr, ← reconcileLoopT_fst]
    exact reconcileLoopT_any fa fl batch
  · intro m hm
    exact reconcileLoop_err fa fl batch m ((appArticles_err fa fl batch m).mp hm)
  · intro h1 h2
    unfold appArticles
    rw [reconcileLoop_total fa fl batch h1 h2]

/-- Witness for C6 (amended) at a concrete failing store. -/
theorem C6_reconcile_errors_witness :
    appArticles faEmpty flB [artM] = .error (linkLookupMsg artM.URL "boom") ∧
    (∃ a ∈ [artM], ∃ e,
      (faEmpty a.URL = .err e ∧
        linkLookupMsg artM.URL "boom" = artLookupMsg a.URL e) ∨
      (∃ l ∈ a.Links, flB l.URL = .err e ∧
        linkLookupMsg artM.URL "boom" = linkLookupMsg a.URL e)) := by
  have h : appArticles faEmpty flB [artM] = .error (linkLookupMsg artM.URL "boom") := by rfl
  exact ⟨h, (C6_reconcile_errors faEmpty flB [artM]).2.1 _ h⟩

/-- Claim C7: `flatten` returns the concatenation, in document order, of
every text node's raw content under the node, each followed by exactly
one space (no trimming or normalization), and the `Context` of every
extracted Link is exactly that concatenation over its anchor's subtree. -/
theorem C7_context_flatten :
    (∀ n : Node, flatten n = specContext n) ∧
    (∀ (psu : String → Option GoURL) (root : Node) (l : link),
       l ∈ extractLinks psu root →
       ∃ a ∈ specAnchors root, l.Context = specContext a) := by
  refine ⟨flatten_context, ?_⟩
  intro psu root l hl
  obtain ⟨a, ha, hla⟩ := extractLinks_mem psu root l hl
  obtain ⟨_, _, _, hctx, _⟩ := specLinkOf_fields psu a l hla
  exact ⟨a, ha, by rw [hctx, flatten_context]⟩

/-- Witness for C7 at a concrete tree. -/
theorem C7_context_flatten_witness :
    flatten treeW = specContext treeW ∧
    flatten treeW = "hello tail bad empty self " ∧
    linkOtherW ∈ extractLinks psuW treeW ∧
    (∃ a ∈ specAnchors treeW, linkOtherW.Context = specContext a) := by
  have hm : linkOtherW ∈ extractLinks psuW treeW := by
    have h2 : extractLinks psuW treeW = [linkOtherW, linkSelfW] := by rfl
    rw [h2]
    simp
  exact ⟨C7_context_flatten.1 treeW, by rfl, hm,
    C7_context_flatten.2 psuW treeW linkOtherW hm⟩

/-- Claim C8: `walkHTML` first calls `visit(root)`; if that call returns
no successor, no child is visited and no exit call is made; otherwise
each child is walked in document order with the successor's state, and
after all children `visit(nil)` is called exactly once; the instrumented
trace agrees with `walkHTML` itself. -/
theorem C8_walk_protocol (σ : Type) (visit : σ → Option Node → σ × Bool)
    (n : Node) (s : σ) :
    ((walkHTMLTrace visit n s).2.head? = some (some n)) ∧
    ((visit s (some n)).2 = false →
      walkHTMLTrace visit n s = ((visit s (some n)).1, [some n])) ∧
    ((visit s (some n)).2 = true →
      (walkHTMLTrace visit n s).2 =
        some n ::
          ((walkHTMLListTrace visit n.children (visit s (some n)).1).2 ++ [none]) ∧
      countNone (walkHTMLTrace visit n s).2 =
        countNone (walkHTMLListTrace visit n.children (visit s (some n)).1).2 + 1) ∧
    ((walkHTMLTrace visit n s).1 = walkHTML visit n s) := by
  cases n with
  | mk t a d ats cs =>
    by_cases hc : (visit s (some (Node.mk t a d ats cs))).2 = true
    · refine ⟨?_, ?_, ?_, walkTrace_fst visit _ s⟩
      · rw [walkHTMLTrace]
        dsimp only
        rw [if_pos hc]
        rfl
      · intro hf
        simp [hf] at hc
      · intro _
        constructor
        · rw [walkHTMLTrace]
          dsimp only
          rw [if_pos hc]
          rfl
        · rw [walkHTMLTrace]
          dsimp only
          rw [if_pos hc]
          simp [countNone, countNone_append]
          rfl
    · refine ⟨?_, ?_, ?_, walkTrace_fst visit _ s⟩
      · rw [walkHTMLTrace]
        dsimp only
        rw [if_neg hc]
        rfl
      · intro _
        rw [walkHTMLTrace]
        dsimp only
        rw [if_neg hc]
      · intro ht
        exact absurd ht hc

/-- Witness for C8: a continuing visitor (the flattener) and a stopping
visitor at a concrete tree. -/
theorem C8_walk_protocol_witness :
    ((walkHTMLTrace flattenVisit treeW "").2.head? = some (some treeW)) ∧
    ((flattenVisit "" (some treeW)).2 = true) ∧
    ((walkHTMLTrace flattenVisit treeW "").2 =
      some treeW ::
        ((walkHTMLListTrace flattenVisit treeW.children
          (flattenVisit "" (some treeW)).1).2 ++ [none])) ∧
    ((stopVisit () (some treeW)).2 = false) ∧
    (walkHTMLTrace stopVisit treeW () = ((stopVisit () (some treeW)).1, [some treeW])) :=
  ⟨(C8_walk_protocol String flattenVisit treeW "").1, rfl,
   ((C8_walk_protocol String flattenVisit treeW "").2.2.1 rfl).1, rfl,
   (C8_walk_protocol Unit stopVisit treeW ()).2.1 rfl⟩

/-- Claim C9: every link produced by extraction has `Queued = false` and a
zero `QueuedAt`; extraction never populates these fields. -/
theorem C9_extraction_fresh (psu : String → Option GoURL) (root : Node) :
    ∀ l ∈ extractLinks psu root, l.Queued = false ∧ l.QueuedAt = 0 :=
  fun l hl => extractLinks_fresh psu root l hl

/-- Witness for C9 at a concrete tree. -/
theorem C9_extraction_fresh_witness :
    linkOtherW ∈ extractLinks psuW treeW ∧
    linkOtherW.Queued = false ∧ linkOtherW.QueuedAt = 0 := by
  have hm : linkOtherW ∈ extractLinks psuW treeW := by
    have h2 : extractLinks psuW treeW = [linkOtherW, linkSelfW] := by rfl
    rw [h2]
    simp
  exact ⟨hm, C9_extraction_fresh psuW treeW linkOtherW hm⟩

/-- Claim C10: on every finite tree the walk terminates — the fuel-indexed
walk converges to `walkHTML`'s value once the fuel reaches the tree
height; in particular `flatten` and link extraction are total. -/
theorem C10_walk_terminates :
    (∀ (σ : Type) (visit : σ → Option Node → σ × Bool) (k : Nat) (n : Node)
       (s : σ), heightN n ≤ k →
         walkHTMLFuel visit k n s = some (walkHTML visit n s)) ∧
    (∀ n : Node, walkHTMLFuel flattenVisit (heightN n) n "" = some (flatten n)) ∧
    (∀ (psu : String → Option GoURL) (root : Node),
       walkHTMLFuel (linkVisit psu) (heightN root) root [] =
         some (extractLinks psu root)) := by
  refine ⟨fun σ visit k n s h => walkFuel_eq visit k n s h, ?_, ?_⟩
  · intro n
    exact walkFuel_eq flattenVisit (heightN n) n "" (le_refl _)
  · intro psu root
    exact walkFuel_eq (linkVisit psu) (heightN root) root [] (le_refl _)

/-- Witness for C10 at a concrete tree and fuel bound. -/
theorem C10_walk_terminates_witness :
    heightN treeW ≤ 3 ∧
    walkHTMLFuel flattenVisit 3 treeW "" = some (walkHTML flattenVisit treeW "") ∧
    walkHTMLFuel flattenVisit (heightN treeW) treeW "" = some (flatten treeW) :=
  ⟨by decide, C10_walk_terminates.1 String flattenVisit 3 treeW "" (by decide),
   C10_walk_terminates.2.1 treeW⟩
